import Mathlib

/-!
# Verification of the `git-gr` dependency-graph and restack core

A shallow embedding, in Lean 4, of the core data model and algorithms of the
`git-gr` stacked-changes tool:

* `DependencyGraph` and its operations (`src/dependency_graph.rs`),
* the restack planner and executor (`src/restack.rs`),
* the push engine (`src/restack_push.rs`),
* the cache-backed Gerrit client operations (`src/gerrit.rs`, `src/cache.rs`).

Rust's `BTreeMap`/`BTreeSet` are modelled as key-sorted association lists /
sorted lists (insertion keeps ascending order and uniqueness, matching the
iteration order of the B-tree structures).  Fallible Rust functions returning
`miette::Result` are modelled with `Except String` (the diagnostic text is
abbreviated).  External collaborators (the Gerrit server, the git subprocess,
the HTTP transport, the disk) are modelled as environments of functions:
a call that can fail returns an `Option`/`Except` value supplied by the
environment.
-/

namespace GitGr

/-- `ChangeNumber(u64)` from `src/change_number.rs`: an opaque numeric change
identifier.  No arithmetic is ever performed on it, so `Nat` is a faithful
model. -/
abbrev ChangeNumber := Nat

/-- `CommitHash` from `src/commit_hash.rs`: a git object hash, an opaque
string. -/
abbrev CommitHash := String

/-- `ChangeId(String)` from `src/change_id.rs`. -/
abbrev ChangeId := String

/-- `ChangeStatus` from `src/change_status.rs`. -/
inductive ChangeStatus where
  | new
  | merged
  | abandoned
deriving DecidableEq, Repr

/-- `Author` from `src/author.rs` (opaque to every claim; carried in
metadata only). -/
structure Author where
  name : String
  email : String
deriving DecidableEq, Repr

/-- `ChangeMetadata` from `src/change_metadata.rs`. -/
structure ChangeMetadata where
  wip : Bool
  status : ChangeStatus
  owner : Author
  id : ChangeId
deriving DecidableEq, Repr

/-! ## `BTreeMap` / `BTreeSet` as sorted association lists -/

/-- `BTreeMap::get` (`.copied()`/`.cloned()`): first — and with sorted unique
keys, only — binding of the key. -/
def mapLookup {α : Type} (m : List (ChangeNumber × α)) (k : ChangeNumber) : Option α :=
  match m with
  | [] => none
  | (k', v) :: rest => if k = k' then some v else mapLookup rest k

/-- `BTreeMap::insert`: record the binding, replacing an existing one, keeping
keys in ascending order. -/
def mapInsert {α : Type} (m : List (ChangeNumber × α)) (k : ChangeNumber) (v : α) :
    List (ChangeNumber × α) :=
  match m with
  | [] => [(k, v)]
  | (k', v') :: rest =>
    if k < k' then (k, v) :: (k', v') :: rest
    else if k = k' then (k, v) :: rest
    else (k', v') :: mapInsert rest k v

/-- `BTreeMap::remove` (the maps in question never hold duplicate keys, so
dropping every binding of the key is `remove`'s semantics). -/
def mapRemove {α : Type} (m : List (ChangeNumber × α)) (k : ChangeNumber) :
    List (ChangeNumber × α) :=
  m.filter (fun p => p.1 != k)

/-- `BTreeSet::insert`, keeping the list sorted and duplicate-free. -/
def setInsert (x : ChangeNumber) (s : List ChangeNumber) : List ChangeNumber :=
  match s with
  | [] => [x]
  | y :: rest =>
    if x < y then x :: y :: rest
    else if x = y then y :: rest
    else y :: setInsert x rest

theorem mapLookup_mapInsert {α : Type} (m : List (ChangeNumber × α)) (k k' : ChangeNumber)
    (v : α) :
    mapLookup (mapInsert m k v) k' = if k' = k then some v else mapLookup m k' := by
  induction m with
  | nil => simp [mapInsert, mapLookup]
  | cons p rest ih =>
    obtain ⟨k₀, v₀⟩ := p
    by_cases hlt : k < k₀
    · by_cases h : k' = k <;> simp [mapInsert, hlt, mapLookup, h]
    · by_cases heq : k = k₀
      · subst heq
        by_cases h : k' = k <;> simp [mapInsert, hlt, mapLookup, h]
      · by_cases h : k' = k₀
        · subst h
          have hne : ¬ k' = k := fun hc => heq hc.symm
          simp [mapInsert, hlt, heq, mapLookup, hne]
        · simp [mapInsert, hlt, heq, mapLookup, h, ih]

theorem mapLookup_mapRemove {α : Type} (m : List (ChangeNumber × α)) (k k' : ChangeNumber) :
    mapLookup (mapRemove m k) k' = if k' = k then none else mapLookup m k' := by
  induction m with
  | nil => simp [mapRemove, mapLookup]
  | cons p rest ih =>
    obtain ⟨k₀, v₀⟩ := p
    by_cases hk : k₀ = k
    · subst hk
      rw [show mapRemove ((k₀, v₀) :: rest) k₀ = mapRemove rest k₀ by
        simp [mapRemove, List.filter_cons]]
      rw [ih]
      by_cases h : k' = k₀ <;> simp [mapLookup, h]
    · have hb : (k₀ != k) = true := bne_iff_ne.mpr hk
      rw [show mapRemove ((k₀, v₀) :: rest) k = (k₀, v₀) :: mapRemove rest k by
        simp [mapRemove, List.filter_cons, hb]]
      by_cases h : k' = k₀
      · subst h
        have hne : ¬ k' = k := hk
        simp [mapLookup, hne]
      · simp only [mapLookup, if_neg h]
        exact ih

theorem mapLookup_mem {α : Type} {m : List (ChangeNumber × α)} {k : ChangeNumber} {v : α}
    (h : mapLookup m k = some v) : (k, v) ∈ m := by
  induction m with
  | nil => simp [mapLookup] at h
  | cons p rest ih =>
    obtain ⟨k₀, v₀⟩ := p
    by_cases hk : k = k₀
    · subst hk
      simp only [mapLookup, if_true, eq_self_iff_true, Option.some.injEq] at h
      subst h
      exact List.mem_cons_self _ _
    · simp only [mapLookup, if_neg hk] at h
      exact List.mem_cons_of_mem _ (ih h)

theorem mem_setInsert (x : ChangeNumber) (s : List ChangeNumber) (a : ChangeNumber) :
    a ∈ setInsert x s ↔ a = x ∨ a ∈ s := by
  induction s with
  | nil => simp [setInsert]
  | cons y rest ih =>
    by_cases hlt : x < y
    · simp [setInsert, if_pos hlt, List.mem_cons]
    · by_cases heq : x = y
      · subst heq
        rw [show setInsert x (x :: rest) = x :: rest by simp [setInsert, hlt]]
        simp only [List.mem_cons]
        tauto
      · simp only [setInsert, if_neg hlt, if_neg heq, List.mem_cons, ih]
        tauto

theorem length_setInsert (x : ChangeNumber) (s : List ChangeNumber) :
    (setInsert x s).length ≤ s.length + 1 := by
  induction s with
  | nil => simp [setInsert]
  | cons y rest ih =>
    by_cases hlt : x < y
    · simp [setInsert, hlt]
    · by_cases heq : x = y
      · simp [setInsert, hlt, heq]
      · simp only [setInsert, if_neg hlt, if_neg heq, List.length_cons]
        omega

/-! ## The dependency graph (`src/dependency_graph.rs`) -/

/-- `DependsOnRelation`: "a change which depends on another change". -/
structure DependsOnRelation where
  change : ChangeNumber
  depends_on : ChangeNumber
deriving DecidableEq, Repr

/-- `DependencyGraph`: a root change, per-change metadata, the one recorded
parent of each change (`dependencies`) and the recorded children of each
change (`reverse_dependencies`). -/
structure DependencyGraph where
  root : ChangeNumber
  metadata : List (ChangeNumber × ChangeMetadata)
  dependencies : List (ChangeNumber × ChangeNumber)
  reverse_dependencies : List (ChangeNumber × List ChangeNumber)
deriving DecidableEq, Repr

namespace DependencyGraph

/-- `DependencyGraph::new`. -/
def new (root : ChangeNumber) : DependencyGraph :=
  { root := root, metadata := [], dependencies := [], reverse_dependencies := [] }

/-- The error produced by a conflicting `insert`: "Changes cannot depend on
multiple changes: {change} already depends on {existing} and cannot also
depend on {new}". -/
structure ConflictingParent where
  change : ChangeNumber
  existing : ChangeNumber
  conflicting : ChangeNumber
deriving DecidableEq, Repr

/-- The reverse-dependency set recorded for a change (reading through the
`or_default` convention: a missing entry reads as the empty set). -/
def rdeps (g : DependencyGraph) (change : ChangeNumber) : List ChangeNumber :=
  (mapLookup g.reverse_dependencies change).getD []

/-- `DependencyGraph::insert`.  Rust mutates `self` in place and returns
`Result<()>`; we return the (possibly unchanged) graph together with the
error, if any.  On a conflicting parent the function returns early, before
touching `reverse_dependencies`; otherwise it records the reverse edge via
`entry(..).or_default().insert(..)`. -/
def insert (g : DependencyGraph) (dependency : DependsOnRelation) :
    DependencyGraph × Option ConflictingParent :=
  match mapLookup g.dependencies dependency.change with
  | some existing =>
    if existing ≠ dependency.depends_on then
      (g, some ⟨dependency.change, existing, dependency.depends_on⟩)
    else
      ({ g with
          reverse_dependencies :=
            mapInsert g.reverse_dependencies dependency.depends_on
              (setInsert dependency.change (g.rdeps dependency.depends_on)) },
        none)
  | none =>
    ({ g with
        dependencies := mapInsert g.dependencies dependency.change dependency.depends_on,
        reverse_dependencies :=
          mapInsert g.reverse_dependencies dependency.depends_on
            (setInsert dependency.change (g.rdeps dependency.depends_on)) },
      none)

/-- `DependencyGraph::depends_on`: the recorded parent, if any. -/
def depends_on (g : DependencyGraph) (change : ChangeNumber) : Option ChangeNumber :=
  mapLookup g.dependencies change

/-- `DependencyGraph::needed_by`: returns the reverse-dependency set, lazily
creating an empty entry (`entry(..).or_default()`) — so the graph itself can
change.  Returns (set, updated graph). -/
def needed_by (g : DependencyGraph) (change : ChangeNumber) :
    List ChangeNumber × DependencyGraph :=
  match mapLookup g.reverse_dependencies change with
  | some s => (s, g)
  | none =>
    ([], { g with reverse_dependencies := mapInsert g.reverse_dependencies change [] })

end DependencyGraph

/-! Termination infrastructure for the worklist loops: the number of
candidate nodes not yet marked seen. -/

theorem length_filter_le_of_imp {l : List ChangeNumber} {P Q : ChangeNumber → Bool}
    (himp : ∀ a, Q a = true → P a = true) :
    (l.filter Q).length ≤ (l.filter P).length := by
  induction l with
  | nil => simp
  | cons b rest ih =>
    rw [List.filter_cons, List.filter_cons]
    by_cases hQ : Q b = true
    · rw [if_pos hQ, if_pos (himp b hQ)]
      simpa using ih
    · rw [if_neg hQ]
      by_cases hP : P b = true
      · rw [if_pos hP]
        exact Nat.le_succ_of_le ih
      · rw [if_neg hP]
        exact ih

theorem length_filter_lt_of_imp {l : List ChangeNumber} {P Q : ChangeNumber → Bool}
    (himp : ∀ a, Q a = true → P a = true) {x : ChangeNumber} (hx : x ∈ l)
    (hPx : P x = true) (hQx : Q x = false) :
    (l.filter Q).length < (l.filter P).length := by
  induction l with
  | nil => cases hx
  | cons b rest ih =>
    rw [List.filter_cons, List.filter_cons]
    by_cases hb : b = x
    · subst hb
      rw [if_pos hPx, if_neg (by simp [hQx])]
      exact Nat.lt_succ_of_le (length_filter_le_of_imp himp)
    · have hx' : x ∈ rest := by
        rcases List.mem_cons.mp hx with h | h
        · exact absurd h.symm hb
        · exact h
      by_cases hQ : Q b = true
      · rw [if_pos hQ, if_pos (himp b hQ)]
        simpa using ih hx'
      · rw [if_neg hQ]
        by_cases hP : P b = true
        · rw [if_pos hP]
          exact Nat.lt_succ_of_lt (ih hx')
        · rw [if_neg hP]
          exact ih hx'

/-- How many of `vals` are not yet in `seen`. -/
def unseenCount (vals seen : List ChangeNumber) : Nat :=
  (vals.filter (fun v => decide (v ∉ seen))).length

theorem unseenCount_setInsert_lt {vals seen : List ChangeNumber} {x : ChangeNumber}
    (hmem : x ∈ vals) (hx : x ∉ seen) :
    unseenCount vals (setInsert x seen) < unseenCount vals seen := by
  refine length_filter_lt_of_imp ?_ hmem ?_ ?_
  · intro a ha
    simp only [decide_eq_true_eq] at ha ⊢
    intro hin
    exact ha ((mem_setInsert x seen a).mpr (Or.inr hin))
  · simpa using hx
  · simp [(mem_setInsert x seen x).mpr (Or.inl rfl)]

theorem depends_on_snd_mem {g : DependencyGraph} {c p : ChangeNumber}
    (h : g.depends_on c = some p) : p ∈ g.dependencies.map Prod.snd := by
  have hm : mapLookup g.dependencies c = some p := h
  exact List.mem_map_of_mem Prod.snd (mapLookup_mem hm)

/-- The worklist loop of `DependencyGraph::depends_on_roots`: walk `depends_on`
links upward from the queue, collecting the changes with no recorded parent.
The `VecDeque` is used as a FIFO (`push_front` paired with `pop_back`), so it
is modelled as a list popped at the head and appended at the tail. -/
def depends_on_roots_go (g : DependencyGraph) (seen queue roots : List ChangeNumber) :
    List ChangeNumber :=
  match queue with
  | [] => roots
  | c :: rest =>
    match hdep : g.depends_on c with
    | some p =>
      if hseen : p ∈ seen then
        depends_on_roots_go g seen rest roots
      else
        depends_on_roots_go g (setInsert p seen) (rest ++ [p]) roots
    | none =>
      depends_on_roots_go g seen rest (setInsert c roots)
termination_by unseenCount (g.dependencies.map Prod.snd) seen + queue.length
decreasing_by
  · simp only [List.length_cons]
    omega
  · have hlt := unseenCount_setInsert_lt (depends_on_snd_mem hdep) hseen
    simp only [List.length_append, List.length_cons, List.length_nil]
    omega
  · simp only [List.length_cons]
    omega

theorem go_nil (g : DependencyGraph) (seen roots : List ChangeNumber) :
    depends_on_roots_go g seen [] roots = roots := by
  rw [depends_on_roots_go]

theorem go_cons_some {g : DependencyGraph} {c p : ChangeNumber}
    (seen rest roots : List ChangeNumber) (hdep : g.depends_on c = some p) :
    depends_on_roots_go g seen (c :: rest) roots =
      if p ∈ seen then depends_on_roots_go g seen rest roots
      else depends_on_roots_go g (setInsert p seen) (rest ++ [p]) roots := by
  rw [depends_on_roots_go]
  split
  · rename_i p' hdep'
    rw [hdep] at hdep'
    cases Option.some.inj hdep'
    by_cases hs : p ∈ seen <;> simp [hs]
  · rename_i hdep'
    rw [hdep] at hdep'
    exact Option.noConfusion hdep'

theorem go_cons_none {g : DependencyGraph} {c : ChangeNumber}
    (seen rest roots : List ChangeNumber) (hdep : g.depends_on c = none) :
    depends_on_roots_go g seen (c :: rest) roots =
      depends_on_roots_go g seen rest (setInsert c roots) := by
  rw [depends_on_roots_go]
  split
  · rename_i p' hdep'
    rw [hdep] at hdep'
    exact Option.noConfusion hdep'
  · rfl

/-- `DependencyGraph::depends_on_roots`: "get the root dependency changes in
the graph", the parent-less changes found by walking `depends_on` links
upward from the graph's root. -/
def DependencyGraph.depends_on_roots (g : DependencyGraph) : List ChangeNumber :=
  depends_on_roots_go g [g.root] [g.root] []

/-- `DependencyGraph::dependency_root`: the unique root; fails (reporting all
candidates) when there is not exactly one. -/
def DependencyGraph.dependency_root (g : DependencyGraph) :
    Except (List ChangeNumber) ChangeNumber :=
  match g.depends_on_roots with
  | [r] => .ok r
  | roots => .error roots

/-! ### Characterising `depends_on_roots`

"Reachable by repeatedly following `depends_on` links from the graph's root"
is the chain `root, parent(root), parent(parent(root)), …`. -/

/-- The change reached after following `n` `depends_on` links from the root
(`none` once the chain has ended). -/
def iterParent (g : DependencyGraph) : Nat → Option ChangeNumber
  | 0 => some g.root
  | n + 1 => (iterParent g n).bind (fun c => g.depends_on c)

theorem iterParent_none_add (g : DependencyGraph) {n : Nat}
    (h : iterParent g n = none) (s : Nat) : iterParent g (n + s) = none := by
  induction s with
  | zero => exact h
  | succ s ih =>
    have : n + (s + 1) = (n + s) + 1 := rfl
    rw [this, iterParent, ih]
    rfl

theorem iterParent_congr_add (g : DependencyGraph) {i j : Nat}
    (h : iterParent g i = iterParent g j) (s : Nat) :
    iterParent g (i + s) = iterParent g (j + s) := by
  induction s with
  | zero => exact h
  | succ s ih =>
    have hi : i + (s + 1) = (i + s) + 1 := rfl
    have hj : j + (s + 1) = (j + s) + 1 := rfl
    rw [hi, hj, iterParent, iterParent, ih]

theorem go_sound (g : DependencyGraph) :
    ∀ seen queue roots : List ChangeNumber,
      (∀ c ∈ queue, ∃ n, iterParent g n = some c) →
      (∀ c ∈ roots, g.depends_on c = none ∧ ∃ n, iterParent g n = some c) →
      ∀ r ∈ depends_on_roots_go g seen queue roots,
        g.depends_on r = none ∧ ∃ n, iterParent g n = some r := by
  intro seen queue roots
  induction seen, queue, roots using depends_on_roots_go.induct g with
  | case1 seen roots =>
    intro _ hroots r hr
    rw [go_nil] at hr
    exact hroots r hr
  | case2 seen roots y rest p hdep hseen ih =>
    intro hqueue hroots r hr
    rw [go_cons_some seen rest roots hdep, if_pos hseen] at hr
    exact ih (fun c hc => hqueue c (List.mem_cons_of_mem _ hc)) hroots r hr
  | case3 seen roots y rest p hdep hseen ih =>
    intro hqueue hroots r hr
    rw [go_cons_some seen rest roots hdep, if_neg hseen] at hr
    refine ih ?_ hroots r hr
    intro c hc
    rcases List.mem_append.mp hc with hc | hc
    · exact hqueue c (List.mem_cons_of_mem _ hc)
    · have hcp : c = p := by simpa using hc
      subst hcp
      obtain ⟨n, hn⟩ := hqueue y (List.mem_cons_self _ _)
      refine ⟨n + 1, ?_⟩
      rw [iterParent, hn]
      exact hdep
  | case4 seen roots y rest hdep ih =>
    intro hqueue hroots r hr
    rw [go_cons_none seen rest roots hdep] at hr
    refine ih (fun c hc => hqueue c (List.mem_cons_of_mem _ hc)) ?_ r hr
    intro c hc
    rcases (mem_setInsert y roots c).mp hc with hc | hc
    · subst hc
      exact ⟨hdep, hqueue c (List.mem_cons_self _ _)⟩
    · exact hroots c hc

theorem go_card (g : DependencyGraph) :
    ∀ seen queue roots : List ChangeNumber,
      (depends_on_roots_go g seen queue roots).length ≤ queue.length + roots.length := by
  intro seen queue roots
  induction seen, queue, roots using depends_on_roots_go.induct g with
  | case1 seen roots =>
    rw [go_nil]
    simp
  | case2 seen roots y rest p hdep hseen ih =>
    rw [go_cons_some seen rest roots hdep, if_pos hseen]
    refine le_trans ih ?_
    simp only [List.length_cons]
    omega
  | case3 seen roots y rest p hdep hseen ih =>
    rw [go_cons_some seen rest roots hdep, if_neg hseen]
    refine le_trans ih ?_
    simp only [List.length_append, List.length_cons, List.length_nil]
    omega
  | case4 seen roots y rest hdep ih =>
    rw [go_cons_none seen rest roots hdep]
    refine le_trans ih ?_
    have := length_setInsert y roots
    simp only [List.length_cons]
    omega

theorem go_complete (g : DependencyGraph) :
    ∀ k m c t : Nat, ∀ seen roots : List ChangeNumber,
      iterParent g m = some c →
      iterParent g (m + k) = some t →
      g.depends_on t = none →
      (∀ x, x ∈ seen ↔ ∃ i ≤ m, iterParent g i = some x) →
      t ∈ depends_on_roots_go g seen [c] roots := by
  intro k
  induction k with
  | zero =>
    intro m c t seen roots hc ht hroot _
    have hct : c = t := by
      rw [Nat.add_zero, hc] at ht
      exact Option.some.inj ht
    subst hct
    rw [go_cons_none seen [] roots hroot, go_nil]
    exact (mem_setInsert c roots c).mpr (Or.inl rfl)
  | succ k ih =>
    intro m c t seen roots hc ht hroot hseen
    have hsucc : iterParent g (m + 1) = g.depends_on c := by
      rw [iterParent, hc]
      rfl
    match hp : g.depends_on c with
    | none =>
      exfalso
      have h1 : iterParent g (m + 1) = none := by rw [hsucc, hp]
      have : iterParent g ((m + 1) + k) = none := iterParent_none_add g h1 k
      have heq : (m + 1) + k = m + (k + 1) := by omega
      rw [heq, ht] at this
      exact Option.noConfusion this
    | some p =>
      have hp1 : iterParent g (m + 1) = some p := by rw [hsucc, hp]
      have h3 : iterParent g ((m + 1) + k) = some t := by
        have heq : (m + 1) + k = m + (k + 1) := by omega
        rw [heq]
        exact ht
      have hpnotseen : p ∉ seen := by
        intro hmem
        obtain ⟨i, hile, hi⟩ := (hseen p).mp hmem
        have hij : iterParent g i = iterParent g (m + 1) := by rw [hi, hp1]
        have h2 := iterParent_congr_add g hij k
        rw [h3] at h2
        have h4 : iterParent g ((i + k) + 1) = none := by
          rw [iterParent, h2]
          simpa using hroot
        have h5 := iterParent_none_add g h4 (m - i)
        have heq2 : ((i + k) + 1) + (m - i) = (m + 1) + k := by omega
        rw [heq2, h3] at h5
        exact Option.noConfusion h5
      rw [go_cons_some seen [] roots hp, if_neg hpnotseen, List.nil_append]
      refine ih (m + 1) p t (setInsert p seen) roots hp1 ?_ hroot ?_
      · have heq : (m + 1) + k = m + (k + 1) := by omega
        rw [heq]
        exact ht
      · intro x
        rw [mem_setInsert]
        constructor
        · rintro (hx | hx)
          · exact ⟨m + 1, le_refl _, hx ▸ hp1⟩
          · obtain ⟨i, hile, hi⟩ := (hseen x).mp hx
            exact ⟨i, Nat.le_succ_of_le hile, hi⟩
        · rintro ⟨i, hile, hi⟩
          rcases Nat.lt_or_ge i (m + 1) with hlt | hge
          · exact Or.inr ((hseen x).mpr ⟨i, Nat.lt_succ_iff.mp hlt, hi⟩)
          · have : i = m + 1 := le_antisymm hile hge
            subst this
            rw [hp1] at hi
            exact Or.inl (by simpa using hi.symm)


/-- `depends_on_roots` returns exactly the parent-less changes on the
parent-chain walk from the graph's root. -/
theorem depends_on_roots_mem_iff (g : DependencyGraph) (c : ChangeNumber) :
    c ∈ g.depends_on_roots ↔ (∃ n, iterParent g n = some c) ∧ g.depends_on c = none := by
  constructor
  · intro h
    have hs := go_sound g [g.root] [g.root] []
      (by
        intro x hx
        have hx' : x = g.root := by simpa using hx
        exact ⟨0, by simp [iterParent, hx']⟩)
      (by intro x hx; cases hx)
      c h
    exact ⟨hs.2, hs.1⟩
  · rintro ⟨⟨n, hn⟩, hroot⟩
    have h0 : iterParent g 0 = some g.root := rfl
    refine go_complete g n 0 g.root c [g.root] [] h0 (by simpa using hn) hroot ?_
    intro x
    constructor
    · intro hx
      have hx' : x = g.root := by simpa using hx
      exact ⟨0, le_refl 0, by simp [iterParent, hx']⟩
    · rintro ⟨i, hi0, hix⟩
      have hi : i = 0 := Nat.le_zero.mp hi0
      subst hi
      have hx : x = g.root := by
        have hgx : some g.root = some x := by rw [← hix]; rfl
        exact (Option.some.inj hgx).symm
      simp [hx]

theorem depends_on_roots_length_le_one (g : DependencyGraph) :
    g.depends_on_roots.length ≤ 1 := by
  have h := go_card g [g.root] [g.root] []
  simpa using h

theorem depends_on_roots_parentless {g : DependencyGraph} {r : ChangeNumber}
    (h : r ∈ g.depends_on_roots) : g.depends_on r = none :=
  ((depends_on_roots_mem_iff g r).mp h).2

theorem dependency_root_ok {g : DependencyGraph} {r : ChangeNumber}
    (h : g.dependency_root = .ok r) : g.depends_on_roots = [r] := by
  unfold DependencyGraph.dependency_root at h
  rcases hroots : g.depends_on_roots with _ | ⟨a, _ | ⟨b, t⟩⟩
  · rw [hroots] at h
    exact Except.noConfusion h
  · rw [hroots] at h
    cases Except.ok.inj h
    rfl
  · rw [hroots] at h
    exact Except.noConfusion h

theorem dependency_root_error_nil {g : DependencyGraph} {e : List ChangeNumber}
    (h : g.dependency_root = .error e) : e = [] := by
  unfold DependencyGraph.dependency_root at h
  rcases hroots : g.depends_on_roots with _ | ⟨a, _ | ⟨b, t⟩⟩
  · rw [hroots] at h
    exact (Except.error.inj h).symm
  · rw [hroots] at h
    exact Except.noConfusion h
  · exfalso
    have hlen := depends_on_roots_length_le_one g
    rw [hroots] at hlen
    simp at hlen

/-! ## External collaborators

The Gerrit server, the git subprocess and the HTTP transport are modelled as
an environment of functions.  Each function models one collaborator call;
`none` (resp. `.error`) is the call failing.  The real calls are cached per
argument (`src/cache.rs` and git's own object store), so modelling them as
functions of their arguments — the same argument giving the same answer
within one run — is faithful. -/

/-- The fields of a Gerrit `Change` (`src/change.rs`) read by the restack and
push engines: its number, status, target branch, current patchset number and
change id. -/
structure ChangeInfo where
  number : ChangeNumber
  status : ChangeStatus
  branch : String
  currentPatchset : Nat
  id : ChangeId
deriving DecidableEq, Repr

/-- The collaborator surface used by `restack.rs` and `restack_push.rs`:

* `getChange c`: `gerrit.get_change(c)` (`none` = lookup failed);
* `fetchCl (c, p)`: `gerrit.fetch_cl(ChangePatchset { change := c, patchset := p })`,
  the commit hash of that patchset;
* `gitFetch remote`: `git.fetch(remote)`;
* `detachHead`: `git.detach_head()`;
* `rebase (c, onto)`: `git.detach_head` has put change `c`'s commit in the
  work tree; `gerrit.rebase_interactive(onto)` followed by `git.get_head()` —
  `some h` is the rewritten head, `none` a rebase conflict;
* `gerritPush (remote, commit, branch)`: `git.gerrit_push(remote, commit, branch)`;
* `formatTreeOk`: whether `graph.format_tree(..)` (pure logging) succeeds.
  `format_tree` also lazily inserts empty reverse-dependency sets via
  `needed_by`; no lookup distinguishes a graph with extra empty sets, so the
  model elides that mutation. -/
structure GerritEnv where
  getChange : ChangeNumber → Option ChangeInfo
  fetchCl : ChangeNumber × Nat → Option CommitHash
  gitFetch : String → Option Unit
  detachHead : Option Unit
  rebase : ChangeNumber × String → Option CommitHash
  gerritPush : String × CommitHash × String → Option Unit
  formatTreeOk : Bool

/-! ## Restack state (`src/restack.rs`) -/

/-- `RefUpdate`: a change's commit hash before and after a restack step. -/
structure RefUpdate where
  old : CommitHash
  new : CommitHash
deriving DecidableEq, Repr

/-- `RefUpdate::has_change`: the update is not a no-op. -/
def RefUpdate.has_change (u : RefUpdate) : Bool :=
  u.old != u.new

/-- `RestackOnto`: what a step rewrites its change onto. -/
inductive RestackOnto where
  | branch (remote : String) (branch : String)
  | change (c : ChangeNumber)
deriving DecidableEq, Repr

/-- `Step`: one queued restack action. -/
structure Step where
  change : ChangeNumber
  onto : RestackOnto
deriving DecidableEq, Repr

/-- `RepositoryState`: where the user was before the restack started. -/
structure RepositoryState where
  change : Option ChangeNumber
  commit : CommitHash
deriving DecidableEq, Repr

/-- `InProgress`: the step that failed mid-execution, and the head of its
change before the step ran. -/
structure InProgress where
  inner : Step
  old_head : CommitHash
deriving DecidableEq, Repr

/-- `RestackTodo`: the persisted restack state. -/
structure RestackTodo where
  before : RepositoryState
  graph : DependencyGraph
  steps : List Step
  refs : List (ChangeNumber × RefUpdate)
  in_progress : Option InProgress
deriving DecidableEq, Repr

/-- `gerrit.fetch_cl(gerrit.get_change(c)?.patchset())?`: the commit hash of
change `c`'s current patchset (`Change::patchset` pairs the change's own
number with its current patchset number). -/
def oldHeadOf (env : GerritEnv) (c : ChangeNumber) : Option CommitHash :=
  match env.getChange c with
  | none => none
  | some info => env.fetchCl (info.number, info.currentPatchset)

/-- `RestackTodo::perform_step`.  Mirrors the source's two arms:

* a root step (`RestackOnto::Branch`) fetches the remote once (threading the
  `fetched` flag), records the change's current patchset commit as `old`,
  and rebases onto the string `{remote}/{branch}`;
* a non-root step (`RestackOnto::Change`) rebases onto the *updated* ref
  recorded in `refs` for the parent if present, else the parent's current
  patchset commit fetched from Gerrit.

On success the refs map gains `step.change ↦ { old, new }` and the
(possibly updated) `fetched` flag is returned; the pretty-printing
`get_change` calls of the source (display only) are kept as fallible
lookups. -/
def RestackTodo.perform_step (env : GerritEnv) (todo : RestackTodo) (step : Step)
    (fetched : Bool) : Except String (RestackTodo × Bool) :=
  match step.onto with
  | .branch remote branch =>
    match (if fetched then some () else env.gitFetch remote) with
    | none => .error "git fetch failed"
    | some _ =>
      match oldHeadOf env step.change with
      | none => .error "failed to fetch current patchset"
      | some old_head =>
        match env.getChange step.change with
        | none => .error "failed to get change"
        | some _ =>
          let parent := remote ++ "/" ++ branch
          match env.detachHead with
          | none => .error "git detach failed"
          | some _ =>
            match env.rebase (step.change, parent) with
            | none => .error "rebase conflict"
            | some new_head =>
              .ok ({ todo with
                      refs := mapInsert todo.refs step.change
                        { old := old_head, new := new_head } },
                   true)
  | .change parent =>
    match env.getChange step.change with
    | none => .error "failed to get change"
    | some _ =>
      match
        (match mapLookup todo.refs parent with
         | some update => some update.new
         | none =>
           match env.getChange parent with
           | none => none
           | some pinfo => env.fetchCl (pinfo.number, pinfo.currentPatchset)) with
      | none => .error "failed to resolve parent ref"
      | some parent_ref =>
        match env.getChange parent with
        | none => .error "failed to get parent"
        | some _ =>
          match oldHeadOf env step.change with
          | none => .error "failed to fetch current patchset"
          | some old_head =>
            match env.detachHead with
            | none => .error "git detach failed"
            | some _ =>
              match env.rebase (step.change, parent_ref) with
              | none => .error "rebase conflict"
              | some new_head =>
                .ok ({ todo with
                        refs := mapInsert todo.refs step.change
                          { old := old_head, new := new_head } },
                     fetched)

/-- The result of running the step queue: either every step was performed
(`completed`, the todo as it stands before the file is deleted), or execution
stopped (`failed`, carrying the todo exactly as last persisted to disk). -/
inductive RestackOutcome where
  | completed (todo : RestackTodo)
  | failed (persisted : RestackTodo)
deriving DecidableEq, Repr

/-- The `while let Some(step) = todo.steps.pop_front()` loop of `restack`.
Each iteration pops the head step, fetches its change's current head (for the
`InProgress` record), and performs the step.  On success the todo (popped
queue, extended refs) is persisted and the loop continues; on failure
`in_progress` is set and the todo is persisted.  When the `old_head` fetch
itself fails the error propagates *before* any write, so the disk still holds
the un-popped queue: `failed todo` with `todo` unchanged. -/
def restackLoop (env : GerritEnv) (todo : RestackTodo) (fetched : Bool) : RestackOutcome :=
  match hsteps : todo.steps with
  | [] => .completed todo
  | step :: rest =>
    match oldHeadOf env step.change with
    | none => .failed todo
    | some old_head =>
      match todo.perform_step env step fetched with
      | .ok (todo', fetched') =>
        restackLoop env { todo' with steps := rest } fetched'
      | .error _ =>
        .failed { todo with
                    steps := rest,
                    in_progress := some { inner := step, old_head := old_head } }
termination_by todo.steps.length
decreasing_by
  simp [hsteps]

/-! ## Planning a restack: `create_todo` -/

/-- The `for needed_by in reverse_dependencies` body: mark each not-yet-seen
child as seen and enqueue it (FIFO).  Children arrive in the set's ascending
order. -/
def enqueueUnseen (seen queue children : List ChangeNumber) :
    List ChangeNumber × List ChangeNumber :=
  match children with
  | [] => (seen, queue)
  | nb :: rest =>
    if nb ∈ seen then enqueueUnseen seen queue rest
    else enqueueUnseen (setInsert nb seen) (queue ++ [nb]) rest

/-- Enough fuel for a breadth-first traversal through reverse-dependency
edges: one pop for the root, at most one per recorded reverse-dependency
edge, and one final empty-queue check.  (`needed_by` only ever adds *empty*
sets, so this bound is stable under the traversal's own graph mutation.)
The safety theorems below hold for every fuel value; fuel only bounds the
modelled loop. -/
def bfsFuel (g : DependencyGraph) : Nat :=
  g.reverse_dependencies.foldl (fun n p => n + p.2.length) 2

/-- The BFS loop inside `create_todo` (one iteration of `for root in &roots`):
pop a change, fetch it, skip it (and its children) when merged/abandoned,
otherwise append its `Step` — onto `{remote}/{its target branch}` when it is a
root, onto its recorded parent otherwise — and enqueue its unseen
reverse dependencies (`needed_by` threads the graph, whose lazily created
empty entries it may extend). -/
def create_todo_go (env : GerritEnv) (remote : String) (roots : List ChangeNumber) :
    Nat → DependencyGraph → List ChangeNumber → List ChangeNumber → List Step →
    Except String (List Step × DependencyGraph)
  | 0, _, _, _, _ => .error "traversal fuel exhausted"
  | fuel + 1, g, seen, queue, steps =>
    match queue with
    | [] => .ok (steps, g)
    | c :: rest =>
      match env.getChange c with
      | none => .error "failed to get change"
      | some info =>
        match info.status with
        | .merged => create_todo_go env remote roots fuel g seen rest steps
        | .abandoned => create_todo_go env remote roots fuel g seen rest steps
        | .new =>
          match
            (if info.number ∈ roots then
              .ok { change := info.number, onto := .branch remote info.branch }
            else
              match g.depends_on info.number with
              | some parent => .ok { change := info.number, onto := .change parent }
              | none => .error "Change does not have parent" :
              Except String Step) with
          | .error e => .error e
          | .ok step =>
            create_todo_go env remote roots fuel (g.needed_by info.number).2
              (enqueueUnseen seen rest (g.needed_by info.number).1).1
              (enqueueUnseen seen rest (g.needed_by info.number).1).2
              (steps ++ [step])

/-- `for root in &roots { … }` of `create_todo`: one BFS per root (fresh
`seen`/queue), accumulating steps and threading the graph. -/
def create_todo_forRoots (env : GerritEnv) (remote : String) (roots : List ChangeNumber) :
    List ChangeNumber → DependencyGraph → List Step →
    Except String (List Step × DependencyGraph)
  | [], g, steps => .ok (steps, g)
  | r :: rs, g, steps =>
    match create_todo_go env remote roots (bfsFuel g) g [r] [r] steps with
    | .error e => .error e
    | .ok (steps', g') => create_todo_forRoots env remote roots rs g' steps'

/-- `create_todo` (`src/restack.rs`): given the dependency graph built for
the branch's change and the repository state recorded as `before` (both
resolved by collaborators outside this model, as is the todo-file existence
check), compute the ordered step queue by BFS from the dependency roots
outward through reverse-dependency edges. -/
def create_todo (env : GerritEnv) (remote : String) (before : RepositoryState)
    (g : DependencyGraph) : Except String RestackTodo :=
  match create_todo_forRoots env remote g.depends_on_roots g.depends_on_roots g [] with
  | .error e => .error e
  | .ok (steps, g') =>
    .ok { before := before, graph := g', steps := steps, refs := [], in_progress := none }

/-! ## The push engine (`src/restack_push.rs`) -/

/-- `PushTodo`: the persisted publish state. -/
structure PushTodo where
  graph : DependencyGraph
  refs : List (ChangeNumber × RefUpdate)
deriving DecidableEq, Repr

/-- `impl From<RestackTodo> for PushTodo`: keep exactly the entries whose
update is not a no-op (`has_change`), with the same graph. -/
def PushTodo.ofRestackTodo (restack_todo : RestackTodo) : PushTodo :=
  { refs :=
      restack_todo.refs.foldl
        (fun m p => if p.2.has_change then mapInsert m p.1 p.2 else m) [],
    graph := restack_todo.graph }

/-- `PushTodo::is_empty`. -/
def PushTodo.is_empty (todo : PushTodo) : Bool :=
  todo.refs.isEmpty

/-- The completion branch of `restack` (after the step loop): derive the
`PushTodo`; if it is empty, tell the user no push is necessary and write
nothing, else write it.  `some` is the written file's contents. -/
def restackFinish (todo : RestackTodo) : Option PushTodo :=
  let push := PushTodo.ofRestackTodo todo
  if push.is_empty then none else some push

/-- The result of the push traversal: `done` when the queue is exhausted,
`failed` when a collaborator call failed (or fuel ran out), in both cases
carrying the todo as last persisted and the publishes made, in order. -/
inductive PushOutcome where
  | done (todo : PushTodo) (published : List (ChangeNumber × RefUpdate))
  | failed (persisted : PushTodo) (published : List (ChangeNumber × RefUpdate))
deriving DecidableEq, Repr

/-- The BFS loop of `restack_push`: pop a change; if it still has a pending
`RefUpdate`, publish its `new` commit to the change's target branch, remove
the entry and re-persist the todo (the source removes the entry in memory
before pushing, but only *writes* after a successful push — so on failure
the persisted todo still holds the entry, which `failed` reflects); then
enqueue its unseen reverse dependencies. -/
def push_go (env : GerritEnv) (remote : String) :
    Nat → PushTodo → List ChangeNumber → List ChangeNumber →
    List (ChangeNumber × RefUpdate) → PushOutcome
  | 0, todo, _, _, published => .failed todo published
  | fuel + 1, todo, seen, queue, published =>
    match queue with
    | [] => .done todo published
    | c :: rest =>
      match mapLookup todo.refs c with
      | some update =>
        match env.getChange c with
        | none => .failed todo published
        | some info =>
          match env.gerritPush (remote, update.new, info.branch) with
          | none => .failed todo published
          | some _ =>
            push_go env remote fuel
              (PushTodo.mk (todo.graph.needed_by c).2 (mapRemove todo.refs c))
              (enqueueUnseen seen rest (todo.graph.needed_by c).1).1
              (enqueueUnseen seen rest (todo.graph.needed_by c).1).2
              (published ++ [(c, update)])
      | none =>
        push_go env remote fuel (PushTodo.mk (todo.graph.needed_by c).2 todo.refs)
          (enqueueUnseen seen rest (todo.graph.needed_by c).1).1
          (enqueueUnseen seen rest (todo.graph.needed_by c).1).2
          published

/-- `restack_push` (`src/restack_push.rs`): load the todo (taken here as an
argument; reading the file is a collaborator concern), require a unique
dependency root, log the tree (`formatTreeOk`; a failure aborts before
anything is pushed), then run the BFS publish loop from the root. -/
def restack_push (env : GerritEnv) (remote : String) (todo : PushTodo) :
    Except (List ChangeNumber) PushOutcome :=
  match todo.graph.dependency_root with
  | .error roots => .error roots
  | .ok root =>
    if env.formatTreeOk then
      .ok (push_go env remote (bfsFuel todo.graph) todo [root] [root] [])
    else
      .ok (.failed todo [])

/-! ## The cached Gerrit client (`src/gerrit.rs`, `src/cache.rs`) -/

/-- `CacheKey` (`src/cache.rs`). -/
inductive CacheKey where
  | change (n : ChangeNumber)
  | changeId (id : ChangeId)
  | changeQuery (q : String)
  | fetch (p : ChangeNumber × Nat)
  | query (q : String)
  | api (endpoint : String)
deriving DecidableEq, Repr

/-- `CacheValue` (`src/cache.rs`); `Query` payloads are the list of changes. -/
inductive CacheValue where
  | change (c : ChangeInfo)
  | fetch (h : CommitHash)
  | query (r : List ChangeInfo)
  | api (s : String)
deriving DecidableEq, Repr

/-- `ChangeKey` (`src/change_key.rs`). -/
inductive ChangeKey where
  | number (n : ChangeNumber)
  | id (i : ChangeId)
  | query (q : String)
deriving DecidableEq, Repr

/-- `impl From<ChangeKey> for CacheKey`. -/
def ChangeKey.toCacheKey : ChangeKey → CacheKey
  | .number n => .change n
  | .id i => .changeId i
  | .query q => .changeQuery q

/-- `ChangeKey`'s `Display`, used as the query string in `get_change`. -/
def ChangeKey.queryString : ChangeKey → String
  | .number n => toString n
  | .id i => i
  | .query q => q

/-- The collaborators of the cached client operations:

* `cacheGet` / `cacheSet`: the disk cache (`IOCached`), whose reads and
  writes can themselves fail;
* `runQuery q`: running `gerrit query q …` over SSH and parsing its output;
* `gitFetchCommit (c, p)`: `git fetch <remote-url> <patchset-ref>` followed
  by `git rev-parse FETCH_HEAD`;
* `httpSend endpoint`: `http_ensure()` plus sending the request and reading
  the response body of a 2xx answer (`.error` covers non-2xx and transport
  failures). -/
structure CacheEnv where
  cacheGet : CacheKey → Except String (Option CacheValue)
  cacheSet : CacheKey → CacheValue → Except String Unit
  runQuery : String → Except String (List ChangeInfo)
  gitFetchCommit : ChangeNumber × Nat → Except String CommitHash
  httpSend : String → Except String String

/-- `Gerrit::query`: consult the cache (`cache_get(..).into_diagnostic()?` —
a failing read propagates), return a hit, otherwise run the remote query and
cache the result (`cache_set(..).into_diagnostic()?` — a failing write
propagates). -/
def Gerrit.query (env : CacheEnv) (q : String) : Except String (List ChangeInfo) :=
  match env.cacheGet (.query q) with
  | .error e => .error e
  | .ok (some (.query result)) => .ok result
  | .ok (some _) => .error "Cached value isn't a set of changes"
  | .ok none =>
    match env.runQuery q with
    | .error e => .error e
    | .ok result =>
      match env.cacheSet (.query q) (.query result) with
      | .error e => .error e
      | .ok _ => .ok result

/-- `Gerrit::get_change`: consult the cache under the change key, otherwise
run `query` with the key's display string, take the last returned change
(`Vec::pop`), and cache it under both its number and its id
(`cache_change`). -/
def Gerrit.get_change (env : CacheEnv) (key : ChangeKey) : Except String ChangeInfo :=
  match env.cacheGet key.toCacheKey with
  | .error e => .error e
  | .ok (some (.change c)) => .ok c
  | .ok (some _) => .error "Cached value isn't a change"
  | .ok none =>
    match Gerrit.query env key.queryString with
    | .error e => .error e
    | .ok changes =>
      match changes.getLast? with
      | none => .error "Didn't find change"
      | some result =>
        match env.cacheSet (.change result.number) (.change result) with
        | .error e => .error e
        | .ok _ =>
          match env.cacheSet (.changeId result.id) (.change result) with
          | .error e => .error e
          | .ok _ => .ok result

/-- `Gerrit::fetch_cl`: consult the cache, otherwise fetch the patchset ref
and read `FETCH_HEAD` (no cache write in the source). -/
def Gerrit.fetch_cl (env : CacheEnv) (change : ChangeNumber × Nat) :
    Except String CommitHash :=
  match env.cacheGet (.fetch change) with
  | .error e => .error e
  | .ok (some (.fetch h)) => .ok h
  | .ok (some _) => .error "Cached value isn't a change"
  | .ok none => env.gitFetchCommit change

/-- The Gerrit XSSI guard line stripped from REST responses: the five
characters `)`, `]`, `}`, an apostrophe, and a newline. -/
def xssiGuard : String :=
  String.mk [Char.ofNat 41, Char.ofNat 93, Char.ofNat 125, Char.ofNat 39, Char.ofNat 10]

/-- `Gerrit::http_request`: consult the cache, otherwise send the request,
strip the XSSI guard from a successful body, cache and return it. -/
def Gerrit.http_request (env : CacheEnv) (endpoint : String) : Except String String :=
  match env.cacheGet (.api endpoint) with
  | .error e => .error e
  | .ok (some (.api response)) => .ok response
  | .ok (some _) => .error "Cached value isn't an API response"
  | .ok none =>
    match env.httpSend endpoint with
    | .error e => .error e
    | .ok body =>
      let body := if body.startsWith xssiGuard then body.drop xssiGuard.length else body
      match env.cacheSet (.api endpoint) (.api body) with
      | .error e => .error e
      | .ok _ => .ok body

/-! ## Lemmas: graph invariants -/

theorem mapLookup_eq_none_of_not_mem_keys {α : Type} {m : List (ChangeNumber × α)}
    {k : ChangeNumber} (h : k ∉ m.map Prod.fst) : mapLookup m k = none := by
  induction m with
  | nil => rfl
  | cons p rest ih =>
    obtain ⟨k₀, v₀⟩ := p
    have hk : ¬ k = k₀ := by
      intro hk
      exact h (by simp [hk])
    simp only [mapLookup, if_neg hk]
    exact ih (fun hm => h (by simp; right; simpa using hm))

/-- One call of `insert` or of `needed_by`, viewed as a graph transformer
(`insert`'s error case leaves the graph untouched, mirroring the early
return). -/
inductive GraphOp where
  | ins (d : DependsOnRelation)
  | nb (c : ChangeNumber)

def applyGraphOp (g : DependencyGraph) : GraphOp → DependencyGraph
  | .ins d => (g.insert d).1
  | .nb c => (g.needed_by c).2

/-- The bidirectional-edge invariant: `reverse_dependencies[p]` holds `c`
iff `dependencies[c] == p`. -/
def EdgeInvariant (g : DependencyGraph) : Prop :=
  ∀ p c : ChangeNumber, c ∈ g.rdeps p ↔ g.depends_on c = some p

theorem rdeps_new (root p : ChangeNumber) : (DependencyGraph.new root).rdeps p = [] := rfl

theorem edgeInvariant_new (root : ChangeNumber) : EdgeInvariant (DependencyGraph.new root) := by
  intro p c
  constructor
  · intro h
    cases h
  · intro h
    exact Option.noConfusion h

theorem edgeInvariant_insert {g : DependencyGraph} (h : EdgeInvariant g)
    (d : DependsOnRelation) : EdgeInvariant (g.insert d).1 := by
  obtain ⟨C, P⟩ := d
  have hraw : ∀ p c, (c ∈ (mapLookup g.reverse_dependencies p).getD []) ↔
      mapLookup g.dependencies c = some p := h
  unfold DependencyGraph.insert
  simp only
  rcases hm : mapLookup g.dependencies C with _ | existing
  · simp only [hm]
    unfold EdgeInvariant DependencyGraph.rdeps DependencyGraph.depends_on
    intro p c
    simp only
    rw [mapLookup_mapInsert, mapLookup_mapInsert]
    by_cases hp : p = P
    · subst hp
      rw [if_pos rfl]
      simp only [Option.getD_some]
      rw [mem_setInsert]
      by_cases hc : c = C
      · simp [hc]
      · rw [if_neg hc]
        constructor
        · intro hx
          rcases hx with hx | hx
          · exact absurd hx hc
          · exact (hraw p c).mp hx
        · intro hx
          exact Or.inr ((hraw p c).mpr hx)
    · rw [if_neg hp]
      by_cases hc : c = C
      · subst hc
        rw [if_pos rfl]
        constructor
        · intro hx
          have hd := (hraw p c).mp hx
          rw [hm] at hd
          exact Option.noConfusion hd
        · intro hx
          exact absurd (Option.some.inj hx).symm hp
      · rw [if_neg hc]
        exact hraw p c
  · simp only [hm]
    by_cases hne : existing ≠ P
    · rw [if_pos hne]
      exact h
    · rw [if_neg hne]
      push_neg at hne
      subst hne
      unfold EdgeInvariant DependencyGraph.rdeps DependencyGraph.depends_on
      intro p c
      simp only
      rw [mapLookup_mapInsert]
      have hdc : mapLookup g.dependencies C = some existing := hm
      by_cases hp : p = existing
      · subst hp
        rw [if_pos rfl]
        simp only [Option.getD_some]
        rw [mem_setInsert]
        constructor
        · intro hx
          rcases hx with hx | hx
          · subst hx
            exact hdc
          · exact (hraw p c).mp hx
        · intro hx
          exact Or.inr ((hraw p c).mpr hx)
      · rw [if_neg hp]
        exact hraw p c

theorem needed_by_rdeps (g : DependencyGraph) (c p : ChangeNumber) :
    (g.needed_by c).2.rdeps p = g.rdeps p := by
  unfold DependencyGraph.needed_by
  rcases hm : mapLookup g.reverse_dependencies c with _ | s
  · simp only
    unfold DependencyGraph.rdeps
    simp only
    rw [mapLookup_mapInsert]
    by_cases h : p = c
    · subst h
      rw [if_pos rfl, hm]
      rfl
    · rw [if_neg h]
  · rfl

theorem needed_by_dependencies (g : DependencyGraph) (c : ChangeNumber) :
    (g.needed_by c).2.dependencies = g.dependencies := by
  unfold DependencyGraph.needed_by
  rcases hm : mapLookup g.reverse_dependencies c with _ | s <;> rfl

theorem needed_by_fst (g : DependencyGraph) (c : ChangeNumber) :
    (g.needed_by c).1 = g.rdeps c := by
  unfold DependencyGraph.needed_by DependencyGraph.rdeps
  rcases hm : mapLookup g.reverse_dependencies c with _ | s <;> simp [hm]

theorem edgeInvariant_needed_by {g : DependencyGraph} (h : EdgeInvariant g)
    (c : ChangeNumber) : EdgeInvariant (g.needed_by c).2 := by
  intro p x
  rw [needed_by_rdeps]
  have hd : (g.needed_by c).2.depends_on x = g.depends_on x := by
    unfold DependencyGraph.depends_on
    rw [needed_by_dependencies]
  rw [hd]
  exact h p x

theorem edgeInvariant_applyGraphOp {g : DependencyGraph} (h : EdgeInvariant g)
    (op : GraphOp) : EdgeInvariant (applyGraphOp g op) := by
  cases op with
  | ins d => exact edgeInvariant_insert h d
  | nb c => exact edgeInvariant_needed_by h c

theorem edgeInvariant_foldl {g : DependencyGraph} (h : EdgeInvariant g) :
    ∀ ops : List GraphOp, EdgeInvariant (ops.foldl applyGraphOp g) := by
  intro ops
  induction ops generalizing g with
  | nil => exact h
  | cons op rest ih =>
    exact ih (edgeInvariant_applyGraphOp h op)

/-- A conflicting `insert` returns the `ConflictingParent` error and leaves
the graph untouched. -/
theorem insert_conflict {g : DependencyGraph} {c a : ChangeNumber} (b : ChangeNumber)
    (hdep : g.depends_on c = some a) (hne : b ≠ a) :
    g.insert { change := c, depends_on := b } =
      (g, some { change := c, existing := a, conflicting := b }) := by
  have hm : mapLookup g.dependencies c = some a := hdep
  unfold DependencyGraph.insert
  simp only [hm]
  rw [if_pos (show a ≠ b from fun h => hne h.symm)]

/-! ## Lemmas: `PushTodo` derivation (C5) -/

theorem foldl_filter_lookup (l : List (ChangeNumber × RefUpdate))
    (hnd : (l.map Prod.fst).Nodup) (c : ChangeNumber) :
    ∀ m : List (ChangeNumber × RefUpdate),
      mapLookup (l.foldl (fun m p => if p.2.has_change then mapInsert m p.1 p.2 else m) m) c =
        match mapLookup l c with
        | some u => if u.has_change then some u else mapLookup m c
        | none => mapLookup m c := by
  induction l with
  | nil =>
    intro m
    rfl
  | cons p rest ih =>
    obtain ⟨k, u⟩ := p
    intro m
    simp only [List.map_cons, List.nodup_cons] at hnd
    obtain ⟨hknot, hnd'⟩ := hnd
    rw [List.foldl_cons]
    rw [ih hnd']
    by_cases hck : c = k
    · subst hck
      have hrest : mapLookup rest c = none := mapLookup_eq_none_of_not_mem_keys hknot
      rw [hrest]
      have hcons : mapLookup ((c, u) :: rest) c = some u := by
        simp [mapLookup]
      rw [hcons]
      simp only
      by_cases hu : u.has_change
      · rw [if_pos hu, if_pos hu, mapLookup_mapInsert, if_pos rfl]
      · rw [if_neg hu, if_neg hu]
    · have hcons : mapLookup ((k, u) :: rest) c = mapLookup rest c := by
        simp [mapLookup, hck]
      rw [hcons]
      have hmm : mapLookup (if u.has_change then mapInsert m k u else m) c = mapLookup m c := by
        by_cases hu : u.has_change
        · rw [if_pos hu, mapLookup_mapInsert, if_neg hck]
        · rw [if_neg hu]
      rcases hlr : mapLookup rest c with _ | u'
      · exact hmm
      · simp only
        by_cases hu' : u'.has_change
        · rw [if_pos hu', if_pos hu']
        · rw [if_neg hu', if_neg hu']
          exact hmm

theorem ofRestack_refs_lookup (t : RestackTodo) (hnd : (t.refs.map Prod.fst).Nodup)
    (c : ChangeNumber) :
    mapLookup (PushTodo.ofRestackTodo t).refs c =
      match mapLookup t.refs c with
      | some u => if u.has_change then some u else none
      | none => none := by
  unfold PushTodo.ofRestackTodo
  simp only
  rw [foldl_filter_lookup t.refs hnd c []]
  rcases hlr : mapLookup t.refs c with _ | u
  · rfl
  · simp only
    by_cases hu : u.has_change
    · rw [if_pos hu, if_pos hu]
    · rw [if_neg hu, if_neg hu]
      rfl

theorem foldl_filter_noop (l : List (ChangeNumber × RefUpdate))
    (h : ∀ p ∈ l, (p : ChangeNumber × RefUpdate).2.has_change = false) :
    ∀ m, l.foldl (fun m p => if p.2.has_change then mapInsert m p.1 p.2 else m) m = m := by
  induction l with
  | nil =>
    intro m
    rfl
  | cons p rest ih =>
    intro m
    rw [List.foldl_cons, if_neg (by rw [h p (List.mem_cons_self _ _)]; exact Bool.false_ne_true)]
    exact ih (fun q hq => h q (List.mem_cons_of_mem _ hq)) m

theorem restackFinish_noop (t : RestackTodo)
    (h : ∀ p ∈ t.refs, (p : ChangeNumber × RefUpdate).2.old = p.2.new) :
    restackFinish t = none := by
  unfold restackFinish PushTodo.ofRestackTodo PushTodo.is_empty
  have hrefs : t.refs.foldl
      (fun m p => if p.2.has_change then mapInsert m p.1 p.2 else m) [] = [] :=
    foldl_filter_noop t.refs
      (fun p hp => by
        have hpn := h p hp
        simp [RefUpdate.has_change, hpn]) []
  simp [hrefs]

/-! ## Lemmas: `perform_step` (C6, C3) -/

/-- What a successful `perform_step` did: it recorded
`step.change ↦ { old := current patchset head, new := rebase result }` in
`refs`, where the rebase target is `{remote}/{branch}` for a root step, and
for a non-root step the *updated* parent ref when `refs` holds the parent,
else the parent's fetched current patchset commit. -/
theorem perform_step_ok {env : GerritEnv} {todo : RestackTodo} {step : Step}
    {fetched : Bool} {todo' : RestackTodo} {fetched' : Bool}
    (h : todo.perform_step env step fetched = .ok (todo', fetched')) :
    ∃ old_head new_head,
      todo' = { todo with refs := mapInsert todo.refs step.change (RefUpdate.mk old_head new_head) } ∧
      oldHeadOf env step.change = some old_head ∧
      (match step.onto with
       | .branch remote branch =>
           env.rebase (step.change, remote ++ "/" ++ branch) = some new_head
       | .change parent =>
           (∃ u, mapLookup todo.refs parent = some u ∧
              env.rebase (step.change, u.new) = some new_head) ∨
           (mapLookup todo.refs parent = none ∧
            ∃ pinfo pref, env.getChange parent = some pinfo ∧
              env.fetchCl (pinfo.number, pinfo.currentPatchset) = some pref ∧
              env.rebase (step.change, pref) = some new_head)) := by
  obtain ⟨sc, onto⟩ := step
  cases onto with
  | branch remote branch =>
    unfold RestackTodo.perform_step at h
    simp only at h
    split at h
    · exact Except.noConfusion h
    · split at h
      · exact Except.noConfusion h
      · rename_i old_head hoh
        split at h
        · exact Except.noConfusion h
        · split at h
          · exact Except.noConfusion h
          · split at h
            · exact Except.noConfusion h
            · rename_i new_head hrb
              rcases Except.ok.inj h with h'
              obtain ⟨h1, h2⟩ := Prod.mk.injEq .. ▸ h'
              exact ⟨old_head, new_head, h1.symm ▸ ⟨rfl, hoh, hrb⟩⟩
  | change parent =>
    unfold RestackTodo.perform_step at h
    simp only at h
    split at h
    · exact Except.noConfusion h
    · split at h
      · exact Except.noConfusion h
      · rename_i parent_ref hpr
        split at h
        · exact Except.noConfusion h
        · split at h
          · exact Except.noConfusion h
          · rename_i old_head hoh
            split at h
            · exact Except.noConfusion h
            · split at h
              · exact Except.noConfusion h
              · rename_i new_head hrb
                rcases Except.ok.inj h with h'
                obtain ⟨h1, h2⟩ := Prod.mk.injEq .. ▸ h'
                refine ⟨old_head, new_head, h1.symm ▸ rfl, hoh, ?_⟩
                split at hpr
                · rename_i u hu
                  exact Or.inl ⟨u, hu, Option.some.inj hpr ▸ hrb⟩
                · rename_i hnone
                  split at hpr
                  · exact Option.noConfusion hpr
                  · rename_i pinfo hpi
                    exact Or.inr ⟨hnone, pinfo, parent_ref,
                      hpi, hpr, hrb⟩

/-! ## Lemmas: the step-execution loop (C3) -/

theorem restackLoop_eq_nil {env : GerritEnv} {todo : RestackTodo} {fetched : Bool}
    (h : todo.steps = []) :
    restackLoop env todo fetched = .completed todo := by
  rw [restackLoop]
  split
  · rfl
  · rename_i step rest heq
    rw [h] at heq
    exact List.noConfusion heq

theorem restackLoop_eq_cons {env : GerritEnv} {todo : RestackTodo} {fetched : Bool}
    {step : Step} {rest : List Step} (h : todo.steps = step :: rest) :
    restackLoop env todo fetched =
      match oldHeadOf env step.change with
      | none => .failed todo
      | some old_head =>
        match todo.perform_step env step fetched with
        | .ok (todo', fetched') => restackLoop env { todo' with steps := rest } fetched'
        | .error _ =>
          .failed { todo with steps := rest, in_progress := some (InProgress.mk step old_head) } := by
  rw [restackLoop]
  split
  · rename_i heq
    rw [h] at heq
    exact List.noConfusion heq
  · rename_i step' rest' heq
    rw [h] at heq
    cases heq
    rfl

/-- After a failure of the `k`-th step, the persisted todo holds that step and
its pre-step head in `in_progress`, the queue minus everything through the
failed step, a refs entry for every step that succeeded, and none of the
consumed steps remain in the queue. -/
theorem restackLoop_failed_spec (env : GerritEnv) :
    ∀ (todo : RestackTodo) (fetched : Bool),
      todo.in_progress = none →
      (todo.steps.map Step.change).Nodup →
      ∀ (t : RestackTodo) (s : Step) (oh : CommitHash),
      restackLoop env todo fetched = .failed t →
      t.in_progress = some (InProgress.mk s oh) →
      ∃ k, k < todo.steps.length ∧
        todo.steps.get? k = some s ∧
        oldHeadOf env s.change = some oh ∧
        t.steps = todo.steps.drop (k + 1) ∧
        (∀ i, i < k → ∃ st u, todo.steps.get? i = some st ∧
            mapLookup t.refs st.change = some u) ∧
        (∀ i, i ≤ k → ∀ st, todo.steps.get? i = some st → st ∉ t.steps) ∧
        (∀ c u, mapLookup todo.refs c = some u → c ∉ todo.steps.map Step.change →
            mapLookup t.refs c = some u) := by
  intro todo fetched
  induction todo, fetched using restackLoop.induct env with
  | case1 todo fetched hsteps =>
    intro _ _ t s oh hloop _
    rw [restackLoop_eq_nil hsteps] at hloop
    exact RestackOutcome.noConfusion hloop
  | case2 todo fetched step rest hsteps hoh =>
    intro hip _ t s oh hloop htip
    rw [restackLoop_eq_cons hsteps] at hloop
    simp only [hoh, RestackOutcome.failed.injEq] at hloop
    subst hloop
    rw [hip] at htip
    exact Option.noConfusion htip
  | case3 todo fetched step rest hsteps old_head hoh todo' fetched' hps ih =>
    intro hip hnd t s oh hloop htip
    rw [restackLoop_eq_cons hsteps] at hloop
    simp only [hoh, hps] at hloop
    obtain ⟨oh0, nh0, htodo', hoh0, _⟩ := perform_step_ok hps
    have hnd' : (rest.map Step.change).Nodup := by
      rw [hsteps] at hnd
      simp only [List.map_cons, List.nodup_cons] at hnd
      exact hnd.2
    have hstepnot : step.change ∉ rest.map Step.change := by
      rw [hsteps] at hnd
      simp only [List.map_cons, List.nodup_cons] at hnd
      exact hnd.1
    have hrefs' : todo'.refs = mapInsert todo.refs step.change (RefUpdate.mk oh0 nh0) := by
      rw [htodo']
    have hip' : todo'.in_progress = none := by
      rw [htodo']
      exact hip
    obtain ⟨k', hk'len, hk'get, hk'oh, hk'steps, hk'refs, hk'notin, hk'pres⟩ :=
      ih hip' hnd' t s oh hloop htip
    refine ⟨k' + 1, ?_, ?_, hk'oh, ?_, ?_, ?_, ?_⟩
    · rw [hsteps]
      simpa using hk'len
    · rw [hsteps]
      simpa using hk'get
    · rw [hsteps]
      simpa using hk'steps
    · intro i hi
      cases i with
      | zero =>
        refine ⟨step, RefUpdate.mk oh0 nh0, by rw [hsteps]; rfl, ?_⟩
        have hl : mapLookup todo'.refs step.change = some (RefUpdate.mk oh0 nh0) := by
          rw [hrefs', mapLookup_mapInsert, if_pos rfl]
        exact hk'pres step.change (RefUpdate.mk oh0 nh0) hl hstepnot
      | succ j =>
        have hj : j < k' := by omega
        obtain ⟨st, u, hst, hu⟩ := hk'refs j hj
        exact ⟨st, u, by rw [hsteps]; simpa using hst, hu⟩
    · intro i hi st hst
      cases i with
      | zero =>
        rw [hsteps] at hst
        have hst' : step = st := by simpa using hst
        subst hst'
        intro hmem
        rw [hk'steps] at hmem
        exact hstepnot (List.mem_map_of_mem Step.change (List.drop_subset _ _ hmem))
      | succ j =>
        have hj : j ≤ k' := by omega
        rw [hsteps] at hst
        exact hk'notin j hj st (by simpa using hst)
    · intro c u hu hc
      rw [hsteps] at hc
      simp only [List.map_cons, List.mem_cons, not_or] at hc
      have hl : mapLookup todo'.refs c = some u := by
        rw [hrefs', mapLookup_mapInsert, if_neg hc.1]
        exact hu
      exact hk'pres c u hl hc.2
  | case4 todo fetched step rest hsteps old_head hoh e hpe =>
    intro hip hnd t s oh hloop htip
    rw [restackLoop_eq_cons hsteps] at hloop
    simp only [hoh, hpe, RestackOutcome.failed.injEq] at hloop
    subst hloop
    simp only [Option.some.injEq] at htip
    have hs : step = s ∧ old_head = oh := by
      have h1 := congrArg InProgress.inner htip
      have h2 := congrArg InProgress.old_head htip
      exact ⟨h1, h2⟩
    obtain ⟨hs1, hs2⟩ := hs
    subst hs1
    subst hs2
    refine ⟨0, ?_, ?_, hoh, ?_, ?_, ?_, ?_⟩
    · rw [hsteps]
      simp
    · rw [hsteps]
      rfl
    · rw [hsteps]
      rfl
    · intro i hi
      omega
    · intro i hi st hst
      have hi0 : i = 0 := by omega
      subst hi0
      rw [hsteps] at hst
      have hst' : step = st := by simpa using hst
      subst hst'
      simp only
      intro hmem
      rw [hsteps] at hnd
      simp only [List.map_cons, List.nodup_cons] at hnd
      exact hnd.1 (List.mem_map_of_mem Step.change hmem)
    · intro c u hu _
      exact hu

/-! ## Lemmas: the breadth-first enqueue step (shared by C1 and C4) -/

theorem enqueueUnseen_seen_mono (children : List ChangeNumber) :
    ∀ seen queue x, x ∈ seen → x ∈ (enqueueUnseen seen queue children).1 := by
  induction children with
  | nil =>
    intro seen queue x hx
    simpa [enqueueUnseen] using hx
  | cons nb rest ih =>
    intro seen queue x hx
    simp only [enqueueUnseen]
    by_cases h : nb ∈ seen
    · rw [if_pos h]
      exact ih seen queue x hx
    · rw [if_neg h]
      exact ih _ _ x ((mem_setInsert nb seen x).mpr (Or.inr hx))

theorem enqueueUnseen_queue_mono (children : List ChangeNumber) :
    ∀ seen queue x, x ∈ queue → x ∈ (enqueueUnseen seen queue children).2 := by
  induction children with
  | nil =>
    intro seen queue x hx
    simpa [enqueueUnseen] using hx
  | cons nb rest ih =>
    intro seen queue x hx
    simp only [enqueueUnseen]
    by_cases h : nb ∈ seen
    · rw [if_pos h]
      exact ih seen queue x hx
    · rw [if_neg h]
      exact ih _ _ x (List.mem_append_left _ hx)

theorem enqueueUnseen_queue_src (children : List ChangeNumber) :
    ∀ seen queue x, x ∈ (enqueueUnseen seen queue children).2 →
      x ∈ queue ∨ (x ∈ children ∧ x ∉ seen) := by
  induction children with
  | nil =>
    intro seen queue x hx
    exact Or.inl (by simpa [enqueueUnseen] using hx)
  | cons nb rest ih =>
    intro seen queue x hx
    simp only [enqueueUnseen] at hx
    by_cases h : nb ∈ seen
    · rw [if_pos h] at hx
      rcases ih seen queue x hx with hq | ⟨hc, hs⟩
      · exact Or.inl hq
      · exact Or.inr ⟨List.mem_cons_of_mem _ hc, hs⟩
    · rw [if_neg h] at hx
      rcases ih _ _ x hx with hq | ⟨hc, hs⟩
      · rcases List.mem_append.mp hq with hq | hq
        · exact Or.inl hq
        · have hxnb : x = nb := by simpa using hq
          subst hxnb
          exact Or.inr ⟨List.mem_cons_self _ _, h⟩
      · refine Or.inr ⟨List.mem_cons_of_mem _ hc, fun hs' => hs ?_⟩
        exact (mem_setInsert nb seen x).mpr (Or.inr hs')

theorem enqueueUnseen_seen_src (children : List ChangeNumber) :
    ∀ seen queue x, x ∈ (enqueueUnseen seen queue children).1 →
      x ∈ seen ∨ x ∈ children := by
  induction children with
  | nil =>
    intro seen queue x hx
    exact Or.inl (by simpa [enqueueUnseen] using hx)
  | cons nb rest ih =>
    intro seen queue x hx
    simp only [enqueueUnseen] at hx
    by_cases h : nb ∈ seen
    · rw [if_pos h] at hx
      rcases ih seen queue x hx with hs | hc
      · exact Or.inl hs
      · exact Or.inr (List.mem_cons_of_mem _ hc)
    · rw [if_neg h] at hx
      rcases ih _ _ x hx with hs | hc
      · rcases (mem_setInsert nb seen x).mp hs with hx' | hx'
        · exact Or.inr (hx' ▸ List.mem_cons_self _ _)
        · exact Or.inl hx'
      · exact Or.inr (List.mem_cons_of_mem _ hc)

theorem enqueueUnseen_queue_sub_seen (children : List ChangeNumber) :
    ∀ seen queue, (∀ x ∈ queue, x ∈ seen) →
      ∀ x ∈ (enqueueUnseen seen queue children).2, x ∈ (enqueueUnseen seen queue children).1 := by
  induction children with
  | nil =>
    intro seen queue hq x hx
    simp only [enqueueUnseen] at hx ⊢
    exact hq x hx
  | cons nb rest ih =>
    intro seen queue hq x hx
    simp only [enqueueUnseen] at hx ⊢
    by_cases h : nb ∈ seen
    · rw [if_pos h] at hx ⊢
      exact ih seen queue hq x hx
    · rw [if_neg h] at hx ⊢
      refine ih _ _ ?_ x hx
      intro y hy
      rcases List.mem_append.mp hy with hy | hy
      · exact (mem_setInsert nb seen y).mpr (Or.inr (hq y hy))
      · have hynb : y = nb := by simpa using hy
        exact (mem_setInsert nb seen y).mpr (Or.inl hynb)

theorem enqueueUnseen_seen_not_queue (children : List ChangeNumber) :
    ∀ seen queue x, x ∈ seen → x ∈ (enqueueUnseen seen queue children).2 → x ∈ queue := by
  induction children with
  | nil =>
    intro seen queue x _ hx
    simpa [enqueueUnseen] using hx
  | cons nb rest ih =>
    intro seen queue x hxs hx
    simp only [enqueueUnseen] at hx
    by_cases h : nb ∈ seen
    · rw [if_pos h] at hx
      exact ih seen queue x hxs hx
    · rw [if_neg h] at hx
      have hx' := ih _ _ x ((mem_setInsert nb seen x).mpr (Or.inr hxs)) hx
      rcases List.mem_append.mp hx' with hq | hq
      · exact hq
      · have hxnb : x = nb := by simpa using hq
        exact absurd (hxnb ▸ hxs) h

theorem enqueueUnseen_nodup (children : List ChangeNumber) :
    ∀ seen queue, queue.Nodup → (∀ x ∈ queue, x ∈ seen) →
      (enqueueUnseen seen queue children).2.Nodup := by
  induction children with
  | nil =>
    intro seen queue hnd _
    simpa [enqueueUnseen] using hnd
  | cons nb rest ih =>
    intro seen queue hnd hq
    simp only [enqueueUnseen]
    by_cases h : nb ∈ seen
    · rw [if_pos h]
      exact ih seen queue hnd hq
    · rw [if_neg h]
      refine ih _ _ ?_ ?_
      · refine List.Nodup.append hnd (List.nodup_singleton nb) ?_
        intro y hy hy'
        have hynb : y = nb := by simpa using hy'
        exact h (hynb ▸ hq y hy)
      · intro y hy
        rcases List.mem_append.mp hy with hy | hy
        · exact (mem_setInsert nb seen y).mpr (Or.inr (hq y hy))
        · have hynb : y = nb := by simpa using hy
          exact (mem_setInsert nb seen y).mpr (Or.inl hynb)

/-- In `steps`, whenever the step at index `i` depends on the change of the
step at index `j`, `j` comes strictly first.  (With distinct step changes,
this is exactly "a parent's step appears strictly before its children's".) -/
def StepsOrdered (deps : List (ChangeNumber × ChangeNumber)) (steps : List Step) : Prop :=
  ∀ i j sti stj, steps.get? i = some sti → steps.get? j = some stj →
    mapLookup deps sti.change = some stj.change → j < i

theorem get?_append_singleton {α : Type} (l : List α) (a : α) (i : Nat) (x : α)
    (h : (l ++ [a]).get? i = some x) :
    (i < l.length ∧ l.get? i = some x) ∨ (i = l.length ∧ x = a) := by
  rcases Nat.lt_trichotomy i l.length with hlt | heq | hgt
  · left
    exact ⟨hlt, by rwa [List.get?_append hlt] at h⟩
  · right
    subst heq
    rw [List.get?_concat_length] at h
    exact ⟨rfl, (Option.some.inj h).symm⟩
  · exfalso
    have hnone : (l ++ [a]).get? i = none := List.get?_eq_none.mpr (by simp; omega)
    rw [hnone] at h
    exact Option.noConfusion h

theorem mem_map_change (steps : List Step) (x : ChangeNumber) :
    x ∈ steps.map Step.change ↔ ∃ j stj, steps.get? j = some stj ∧ stj.change = x := by
  rw [List.mem_map]
  constructor
  · rintro ⟨st, hst, hx⟩
    obtain ⟨j, hj⟩ := List.mem_iff_get?.mp hst
    exact ⟨j, st, hj, hx⟩
  · rintro ⟨j, stj, hj, hx⟩
    exact ⟨stj, List.get?_mem hj, hx⟩

/-- Invariant-carrying specification of the `create_todo` BFS loop: from a
state where every queued change is either parent-less or has its parent's
step already emitted, a successful traversal yields a step list in dependency
order with pairwise-distinct changes, without touching `dependencies`. -/
theorem create_todo_go_spec (env : GerritEnv) (remote : String) (roots : List ChangeNumber)
    (henv : ∀ n c, env.getChange n = some c → c.number = n) :
    ∀ (fuel : Nat) (g : DependencyGraph) (seen queue : List ChangeNumber)
      (steps steps' : List Step) (g' : DependencyGraph),
      (∀ x c, c ∈ g.rdeps x → mapLookup g.dependencies c = some x) →
      (∀ r ∈ roots, mapLookup g.dependencies r = none) →
      (∀ x ∈ queue, x ∈ seen) →
      queue.Nodup →
      (∀ st ∈ steps, st.change ∈ seen ∧ st.change ∉ queue) →
      ((steps.map Step.change).Nodup) →
      (∀ x ∈ queue, mapLookup g.dependencies x = none ∨
        ∃ p, mapLookup g.dependencies x = some p ∧ p ∈ steps.map Step.change) →
      StepsOrdered g.dependencies steps →
      (∀ st ∈ steps, ∀ p, mapLookup g.dependencies st.change = some p →
        p ∈ steps.map Step.change) →
      create_todo_go env remote roots fuel g seen queue steps = .ok (steps', g') →
      g'.dependencies = g.dependencies ∧ StepsOrdered g.dependencies steps' ∧
        (steps'.map Step.change).Nodup := by
  intro fuel
  induction fuel with
  | zero =>
    intro g seen queue steps steps' g' _ _ _ _ _ _ _ _ _ hok
    exact Except.noConfusion hok
  | succ fuel ih =>
    intro g seen queue steps steps' g' hrdeps hroots hqseen hqnd hsteps hstnd hpar hord hclo hok
    rcases queue with _ | ⟨c, rest⟩
    · simp only [create_todo_go] at hok
      rcases Except.ok.inj hok with h'
      obtain ⟨h1, h2⟩ := Prod.mk.injEq .. ▸ h'
      subst h1
      subst h2
      exact ⟨rfl, hord, hstnd⟩
    · simp only [create_todo_go] at hok
      split at hok
      · exact Except.noConfusion hok
      · rename_i info hgc
        have hnum : info.number = c := henv c info hgc
        have hcseen : c ∈ seen := hqseen c (List.mem_cons_self _ _)
        have hrestseen : ∀ x ∈ rest, x ∈ seen :=
          fun x hx => hqseen x (List.mem_cons_of_mem _ hx)
        have hrestnd : rest.Nodup := hqnd.of_cons
        have hcnotrest : c ∉ rest := (List.nodup_cons.mp hqnd).1
        split at hok
        · -- merged: skip, children not enqueued
          refine ih g seen rest steps steps' g' hrdeps hroots hrestseen hrestnd ?_ hstnd ?_
            hord hclo hok
          · intro st hst
            exact ⟨(hsteps st hst).1, fun hm => (hsteps st hst).2 (List.mem_cons_of_mem _ hm)⟩
          · intro x hx
            exact hpar x (List.mem_cons_of_mem _ hx)
        · -- abandoned: same
          refine ih g seen rest steps steps' g' hrdeps hroots hrestseen hrestnd ?_ hstnd ?_
            hord hclo hok
          · intro st hst
            exact ⟨(hsteps st hst).1, fun hm => (hsteps st hst).2 (List.mem_cons_of_mem _ hm)⟩
          · intro x hx
            exact hpar x (List.mem_cons_of_mem _ hx)
        · -- new: a step is emitted
          split at hok
          · exact Except.noConfusion hok
          · rename_i step hstepeq
            -- facts about the emitted step
            have hstepchange : step.change = c ∧
                (mapLookup g.dependencies c = none →
                  ∃ rr bb, step.onto = .branch rr bb) ∧
                (∀ p, step.onto = .change p → mapLookup g.dependencies c = some p) := by
              rw [hnum] at hstepeq
              split at hstepeq
              · rcases Except.ok.inj hstepeq with h'
                refine ⟨by rw [← h'], fun _ => ⟨remote, info.branch, by rw [← h']⟩, ?_⟩
                intro p hp
                rw [← h'] at hp
                exact RestackOnto.noConfusion hp
              · split at hstepeq
                · rename_i parent hparent
                  rcases Except.ok.inj hstepeq with h'
                  refine ⟨by rw [← h'], ?_, ?_⟩
                  · intro hnone
                    have hparent' : mapLookup g.dependencies c = some parent := hparent
                    rw [hnone] at hparent'
                    exact Option.noConfusion hparent'
                  · intro p hp
                    rw [← h'] at hp
                    have : parent = p := RestackOnto.change.inj hp
                    rw [← this]
                    exact hparent
                · exact Except.noConfusion hstepeq
            obtain ⟨hsc, hscroot, hscpar⟩ := hstepchange
            -- the step's parent, if it has one, is already emitted
            have hparstep : ∀ p, mapLookup g.dependencies c = some p →
                p ∈ steps.map Step.change := by
              intro p hp
              rcases hpar c (List.mem_cons_self _ _) with hn | ⟨p', hp', hmem⟩
              · rw [hn] at hp
                exact Option.noConfusion hp
              · rw [hp'] at hp
                cases Option.some.inj hp
                exact hmem
            have hcnotsteps : c ∉ steps.map Step.change := by
              intro hm
              rcases (mem_map_change steps c).mp hm with ⟨j, stj, hj, hjc⟩
              exact (hsteps stj (List.get?_mem hj)).2 (hjc ▸ List.mem_cons_self _ _)
            -- the recursive state
            rw [hnum] at hok
            have hch : (g.needed_by c).1 = g.rdeps c := needed_by_fst g c
            have hgdeps : (g.needed_by c).2.dependencies = g.dependencies :=
              needed_by_dependencies g c
            have hgrd : ∀ p, (g.needed_by c).2.rdeps p = g.rdeps p :=
              fun p => needed_by_rdeps g c p
            have hmain : g'.dependencies = (g.needed_by c).2.dependencies ∧
                StepsOrdered (g.needed_by c).2.dependencies steps' ∧
                (steps'.map Step.change).Nodup := by
              refine ih (g.needed_by c).2 _ _ (steps ++ [step]) steps' g'
                ?_ ?_ ?_ ?_ ?_ ?_ ?_ ?_ ?_ hok
              · intro x y hy
                rw [hgrd x] at hy
                rw [hgdeps]
                exact hrdeps x y hy
              · intro r hr
                rw [hgdeps]
                exact hroots r hr
              · exact enqueueUnseen_queue_sub_seen _ seen rest hrestseen
              · exact enqueueUnseen_nodup _ seen rest hrestnd hrestseen
              · intro st hst
                rcases List.mem_append.mp hst with hst | hst
                · refine ⟨enqueueUnseen_seen_mono _ seen rest _ (hsteps st hst).1, ?_⟩
                  intro hq
                  have := enqueueUnseen_seen_not_queue _ seen rest _ (hsteps st hst).1 hq
                  exact (hsteps st hst).2 (List.mem_cons_of_mem _ this)
                · have hstep : st = step := by simpa using hst
                  subst hstep
                  rw [hsc]
                  refine ⟨enqueueUnseen_seen_mono _ seen rest _ hcseen, ?_⟩
                  intro hq
                  exact hcnotrest (enqueueUnseen_seen_not_queue _ seen rest _ hcseen hq)
              · rw [List.map_append]
                refine List.Nodup.append hstnd (by simp) ?_
                intro y hy hy'
                have hyc : y = c := by
                  have : y = step.change := by simpa using hy'
                  rw [this, hsc]
                exact hcnotsteps (hyc ▸ hy)
              · intro x hx
                rw [hgdeps]
                rcases enqueueUnseen_queue_src _ seen rest x hx with hq | ⟨hc', _⟩
                · rcases hpar x (List.mem_cons_of_mem _ hq) with hn | ⟨p, hp, hmem⟩
                  · exact Or.inl hn
                  · exact Or.inr ⟨p, hp, by rw [List.map_append]; exact List.mem_append_left _ hmem⟩
                · rw [hch] at hc'
                  have hpx : mapLookup g.dependencies x = some c := hrdeps c x hc'
                  refine Or.inr ⟨c, hpx, ?_⟩
                  rw [List.map_append, ← hsc]
                  exact List.mem_append_right _ (by simp)
              · -- ordering of steps ++ [step]
                rw [hgdeps]
                intro i j sti stj hi hj hdep
                rcases get?_append_singleton steps step i sti hi with ⟨hilt, hi'⟩ | ⟨hieq, hie⟩
                · rcases get?_append_singleton steps step j stj hj with ⟨hjlt, hj'⟩ | ⟨hjeq, hje⟩
                  · exact hord i j sti stj hi' hj' hdep
                  · exfalso
                    subst hje
                    rw [hsc] at hdep
                    have := hclo sti (List.get?_mem hi') c hdep
                    exact hcnotsteps this
                · rw [hie, hsc] at hdep
                  rcases get?_append_singleton steps step j stj hj with ⟨hjlt, hj'⟩ | ⟨hjeq, hje⟩
                  · omega
                  · exfalso
                    rw [hje, hsc] at hdep
                    exact hcnotsteps (hparstep c hdep)
              · -- parent-closure of steps ++ [step]
                rw [hgdeps]
                intro st hst p hp
                rw [List.map_append]
                rcases List.mem_append.mp hst with hst | hst
                · exact List.mem_append_left _ (hclo st hst p hp)
                · have hstep : st = step := by simpa using hst
                  subst hstep
                  rw [hsc] at hp
                  exact List.mem_append_left _ (hparstep p hp)
            rw [hgdeps] at hmain
            exact hmain

/-! ## Lemmas: the push traversal (C4) -/

/-- The todo as last persisted, for either outcome. -/
def PushOutcome.todo : PushOutcome → PushTodo
  | .done t _ => t
  | .failed t _ => t

/-- The publishes performed, in order, for either outcome. -/
def PushOutcome.published : PushOutcome → List (ChangeNumber × RefUpdate)
  | .done _ p => p
  | .failed _ p => p

/-- In the publish list, whenever the entry at index `i` depends on the
change of the entry at index `j`, `j` comes strictly first. -/
def PubOrdered (deps : List (ChangeNumber × ChangeNumber))
    (pub : List (ChangeNumber × RefUpdate)) : Prop :=
  ∀ i j pi pj, pub.get? i = some pi → pub.get? j = some pj →
    mapLookup deps pi.1 = some pj.1 → j < i

theorem push_conclusions (gdeps : List (ChangeNumber × ChangeNumber))
    (refsCur refs0 : List (ChangeNumber × RefUpdate))
    (published : List (ChangeNumber × RefUpdate))
    (hpubnd : (published.map Prod.fst).Nodup)
    (hB4 : ∀ pu ∈ published, mapLookup refsCur (pu : ChangeNumber × RefUpdate).1 = none ∧
        mapLookup refs0 pu.1 = some pu.2)
    (hB5 : ∀ c, c ∉ published.map Prod.fst → mapLookup refsCur c = mapLookup refs0 c)
    (hB7 : ∀ pu ∈ published, ∀ p,
        mapLookup gdeps (pu : ChangeNumber × RefUpdate).1 = some p →
        p ∈ published.map Prod.fst ∨ mapLookup refsCur p = none)
    (hB8 : PubOrdered gdeps published) :
    PubOrdered gdeps published ∧ ((published.map Prod.fst).Nodup) ∧
    (∀ pu ∈ published, mapLookup refs0 (pu : ChangeNumber × RefUpdate).1 = some pu.2) ∧
    (∀ c, mapLookup refsCur c =
      if c ∈ published.map Prod.fst then none else mapLookup refs0 c) ∧
    (∀ pu ∈ published, ∀ p,
      mapLookup gdeps (pu : ChangeNumber × RefUpdate).1 = some p →
      p ∈ published.map Prod.fst ∨ mapLookup refsCur p = none) := by
  refine ⟨hB8, hpubnd, fun pu hpu => (hB4 pu hpu).2, ?_, hB7⟩
  intro c
  by_cases hc : c ∈ published.map Prod.fst
  · rw [if_pos hc]
    obtain ⟨pu, hpu, hpuc⟩ := List.mem_map.mp hc
    rw [← hpuc]
    exact (hB4 pu hpu).1
  · rw [if_neg hc]
    exact hB5 c hc

theorem push_go_spec (env : GerritEnv) (remote : String) :
    ∀ (fuel : Nat) (todo : PushTodo) (seen queue : List ChangeNumber)
      (published refs0 : List (ChangeNumber × RefUpdate)) (out : PushOutcome),
      (∀ x c, c ∈ todo.graph.rdeps x → mapLookup todo.graph.dependencies c = some x) →
      (∀ x ∈ queue, x ∈ seen) →
      queue.Nodup →
      ((published.map Prod.fst).Nodup) →
      (∀ pu ∈ published, (pu : ChangeNumber × RefUpdate).1 ∈ seen ∧ pu.1 ∉ queue ∧
        mapLookup todo.refs pu.1 = none ∧ mapLookup refs0 pu.1 = some pu.2) →
      (∀ c, c ∉ published.map Prod.fst → mapLookup todo.refs c = mapLookup refs0 c) →
      (∀ x ∈ queue, ∀ p, mapLookup todo.graph.dependencies x = some p →
        p ∈ published.map Prod.fst ∨ mapLookup todo.refs p = none) →
      (∀ pu ∈ published, ∀ p,
        mapLookup todo.graph.dependencies (pu : ChangeNumber × RefUpdate).1 = some p →
        p ∈ published.map Prod.fst ∨ mapLookup todo.refs p = none) →
      PubOrdered todo.graph.dependencies published →
      push_go env remote fuel todo seen queue published = out →
      PubOrdered todo.graph.dependencies out.published ∧
      ((out.published.map Prod.fst).Nodup) ∧
      (∀ pu ∈ out.published, mapLookup refs0 (pu : ChangeNumber × RefUpdate).1 = some pu.2) ∧
      (∀ c, mapLookup out.todo.refs c =
        if c ∈ out.published.map Prod.fst then none else mapLookup refs0 c) ∧
      (∀ pu ∈ out.published, ∀ p,
        mapLookup todo.graph.dependencies (pu : ChangeNumber × RefUpdate).1 = some p →
        p ∈ out.published.map Prod.fst ∨ mapLookup out.todo.refs p = none) := by
  intro fuel
  induction fuel with
  | zero =>
    intro todo seen queue published refs0 out _ _ _ hpubnd hB4 hB5 _ hB7 hB8 hout
    simp only [push_go] at hout
    subst hout
    exact push_conclusions todo.graph.dependencies todo.refs refs0 published hpubnd
      (fun pu hpu => ⟨(hB4 pu hpu).2.2.1, (hB4 pu hpu).2.2.2⟩) hB5 hB7 hB8
  | succ fuel ih =>
    intro todo seen queue published refs0 out hrdeps hqseen hqnd hpubnd hB4 hB5 hB6 hB7 hB8 hout
    rcases queue with _ | ⟨c, rest⟩
    · simp only [push_go] at hout
      subst hout
      exact push_conclusions todo.graph.dependencies todo.refs refs0 published hpubnd
        (fun pu hpu => ⟨(hB4 pu hpu).2.2.1, (hB4 pu hpu).2.2.2⟩) hB5 hB7 hB8
    · have hcseen : c ∈ seen := hqseen c (List.mem_cons_self _ _)
      have hrestseen : ∀ x ∈ rest, x ∈ seen :=
        fun x hx => hqseen x (List.mem_cons_of_mem _ hx)
      have hrestnd : rest.Nodup := hqnd.of_cons
      have hcnotrest : c ∉ rest := (List.nodup_cons.mp hqnd).1
      have hch : (todo.graph.needed_by c).1 = todo.graph.rdeps c := needed_by_fst _ c
      have hgdeps : (todo.graph.needed_by c).2.dependencies = todo.graph.dependencies :=
        needed_by_dependencies _ c
      have hgrd : ∀ p, (todo.graph.needed_by c).2.rdeps p = todo.graph.rdeps p :=
        fun p => needed_by_rdeps _ c p
      simp only [push_go] at hout
      split at hout
      · -- pending entry: publish
        rename_i update hupd
        have hcnotpub : c ∉ published.map Prod.fst := by
          intro hm
          obtain ⟨pu, hpu, hpuc⟩ := List.mem_map.mp hm
          have := (hB4 pu hpu).2.2.1
          rw [hpuc, hupd] at this
          exact Option.noConfusion this
        have hrefs0c : mapLookup refs0 c = some update := by
          rw [← hB5 c hcnotpub]
          exact hupd
        split at hout
        · -- get_change failed
          subst hout
          exact push_conclusions todo.graph.dependencies todo.refs refs0 published hpubnd
            (fun pu hpu => ⟨(hB4 pu hpu).2.2.1, (hB4 pu hpu).2.2.2⟩) hB5 hB7 hB8
        · split at hout
          · -- push failed
            subst hout
            exact push_conclusions todo.graph.dependencies todo.refs refs0 published hpubnd
              (fun pu hpu => ⟨(hB4 pu hpu).2.2.1, (hB4 pu hpu).2.2.2⟩) hB5 hB7 hB8
          · -- push succeeded: recurse
            have hres := ih (PushTodo.mk (todo.graph.needed_by c).2 (mapRemove todo.refs c))
              (enqueueUnseen seen rest (todo.graph.needed_by c).1).1
              (enqueueUnseen seen rest (todo.graph.needed_by c).1).2
              (published ++ [(c, update)]) refs0 out
              ?_ ?_ ?_ ?_ ?_ ?_ ?_ ?_ ?_ hout
            · obtain ⟨hc1, hc2, hc3, hc4, hc5⟩ := hres
              rw [hgdeps] at hc1 hc5
              exact ⟨hc1, hc2, hc3, hc4, hc5⟩
            · intro x y hy
              rw [hgrd x] at hy
              rw [show (PushTodo.mk (todo.graph.needed_by c).2
                  (mapRemove todo.refs c)).graph.dependencies =
                  todo.graph.dependencies from hgdeps]
              exact hrdeps x y hy
            · exact enqueueUnseen_queue_sub_seen _ seen rest hrestseen
            · exact enqueueUnseen_nodup _ seen rest hrestnd hrestseen
            · rw [List.map_append]
              refine List.Nodup.append hpubnd (by simp) ?_
              intro y hy hy'
              have hyc : y = c := by simpa using hy'
              exact hcnotpub (hyc ▸ hy)
            · intro pu hpu
              rcases List.mem_append.mp hpu with hpu | hpu
              · obtain ⟨hs, hq, hr, hr0⟩ := hB4 pu hpu
                refine ⟨enqueueUnseen_seen_mono _ seen rest _ hs, ?_, ?_, hr0⟩
                · intro hq'
                  exact hq (List.mem_cons_of_mem _
                    (enqueueUnseen_seen_not_queue _ seen rest _ hs hq'))
                · show mapLookup (mapRemove todo.refs c) pu.1 = none
                  rw [mapLookup_mapRemove]
                  by_cases hpc : pu.1 = c
                  · rw [if_pos hpc]
                  · rw [if_neg hpc]
                    exact hr
              · have hpuc : pu = (c, update) := by simpa using hpu
                subst hpuc
                refine ⟨enqueueUnseen_seen_mono _ seen rest _ hcseen, ?_, ?_, hrefs0c⟩
                · intro hq'
                  exact hcnotrest (enqueueUnseen_seen_not_queue _ seen rest _ hcseen hq')
                · show mapLookup (mapRemove todo.refs c) c = none
                  rw [mapLookup_mapRemove, if_pos rfl]
            · intro c' hc'
              rw [List.map_append] at hc'
              simp only [List.mem_append, not_or] at hc'
              have hc'c : c' ≠ c := by
                intro h
                exact hc'.2 (by simp [h])
              show mapLookup (mapRemove todo.refs c) c' = mapLookup refs0 c'
              rw [mapLookup_mapRemove, if_neg hc'c]
              exact hB5 c' hc'.1
            · intro x hx p hp
              rw [show (PushTodo.mk (todo.graph.needed_by c).2
                  (mapRemove todo.refs c)).graph.dependencies =
                  todo.graph.dependencies from hgdeps] at hp
              have hremove : ∀ q, mapLookup todo.refs q = none →
                  mapLookup (mapRemove todo.refs c) q = none := by
                intro q hq
                rw [mapLookup_mapRemove]
                by_cases hqc : q = c
                · rw [if_pos hqc]
                · rw [if_neg hqc]
                  exact hq
              rcases enqueueUnseen_queue_src _ seen rest x hx with hq | ⟨hcm, _⟩
              · rcases hB6 x (List.mem_cons_of_mem _ hq) p hp with hm | hn
                · exact Or.inl (by rw [List.map_append]; exact List.mem_append_left _ hm)
                · exact Or.inr (hremove p hn)
              · rw [hch] at hcm
                have hpc : mapLookup todo.graph.dependencies x = some c := hrdeps c x hcm
                rw [hp] at hpc
                cases Option.some.inj hpc
                exact Or.inl (by rw [List.map_append]; simp)
            · intro pu hpu p hp
              rw [show (PushTodo.mk (todo.graph.needed_by c).2
                  (mapRemove todo.refs c)).graph.dependencies =
                  todo.graph.dependencies from hgdeps] at hp
              have hremove : ∀ q, mapLookup todo.refs q = none →
                  mapLookup (mapRemove todo.refs c) q = none := by
                intro q hq
                rw [mapLookup_mapRemove]
                by_cases hqc : q = c
                · rw [if_pos hqc]
                · rw [if_neg hqc]
                  exact hq
              rcases List.mem_append.mp hpu with hpu | hpu
              · rcases hB7 pu hpu p hp with hm | hn
                · exact Or.inl (by rw [List.map_append]; exact List.mem_append_left _ hm)
                · exact Or.inr (hremove p hn)
              · have hpuc : pu = (c, update) := by simpa using hpu
                subst hpuc
                rcases hB6 c (List.mem_cons_self _ _) p hp with hm | hn
                · exact Or.inl (by rw [List.map_append]; exact List.mem_append_left _ hm)
                · exact Or.inr (hremove p hn)
            · rw [show (PushTodo.mk (todo.graph.needed_by c).2
                  (mapRemove todo.refs c)).graph.dependencies =
                  todo.graph.dependencies from hgdeps]
              intro i j pi pj hi hj hdep
              rcases get?_append_singleton published (c, update) i pi hi with
                ⟨hilt, hi'⟩ | ⟨hieq, hie⟩
              · rcases get?_append_singleton published (c, update) j pj hj with
                  ⟨hjlt, hj'⟩ | ⟨hjeq, hje⟩
                · exact hB8 i j pi pj hi' hj' hdep
                · exfalso
                  rw [hje] at hdep
                  rcases hB7 pi (List.get?_mem hi') c hdep with hm | hn
                  · obtain ⟨pu, hpu, hpuc⟩ := List.mem_map.mp hm
                    have := (hB4 pu hpu).2.2.1
                    rw [hpuc, hupd] at this
                    exact Option.noConfusion this
                  · rw [hupd] at hn
                    exact Option.noConfusion hn
              · rw [hie] at hdep
                rcases get?_append_singleton published (c, update) j pj hj with
                  ⟨hjlt, hj'⟩ | ⟨hjeq, hje⟩
                · omega
                · exfalso
                  rw [hje] at hdep
                  rcases hB6 c (List.mem_cons_self _ _) c hdep with hm | hn
                  · obtain ⟨pu, hpu, hpuc⟩ := List.mem_map.mp hm
                    have := (hB4 pu hpu).2.2.1
                    rw [hpuc, hupd] at this
                    exact Option.noConfusion this
                  · rw [hupd] at hn
                    exact Option.noConfusion hn
      · -- no pending entry: just traverse
        rename_i hnone
        have hres := ih (PushTodo.mk (todo.graph.needed_by c).2 todo.refs)
          (enqueueUnseen seen rest (todo.graph.needed_by c).1).1
          (enqueueUnseen seen rest (todo.graph.needed_by c).1).2
          published refs0 out
          ?_ ?_ ?_ ?_ ?_ ?_ ?_ ?_ ?_ hout
        · obtain ⟨hc1, hc2, hc3, hc4, hc5⟩ := hres
          rw [hgdeps] at hc1 hc5
          exact ⟨hc1, hc2, hc3, hc4, hc5⟩
        · intro x y hy
          rw [hgrd x] at hy
          rw [show (PushTodo.mk (todo.graph.needed_by c).2 todo.refs).graph.dependencies =
              todo.graph.dependencies from hgdeps]
          exact hrdeps x y hy
        · exact enqueueUnseen_queue_sub_seen _ seen rest hrestseen
        · exact enqueueUnseen_nodup _ seen rest hrestnd hrestseen
        · exact hpubnd
        · intro pu hpu
          obtain ⟨hs, hq, hr, hr0⟩ := hB4 pu hpu
          refine ⟨enqueueUnseen_seen_mono _ seen rest _ hs, ?_, hr, hr0⟩
          intro hq'
          exact hq (List.mem_cons_of_mem _
            (enqueueUnseen_seen_not_queue _ seen rest _ hs hq'))
        · exact hB5
        · intro x hx p hp
          rw [show (PushTodo.mk (todo.graph.needed_by c).2 todo.refs).graph.dependencies =
              todo.graph.dependencies from hgdeps] at hp
          rcases enqueueUnseen_queue_src _ seen rest x hx with hq | ⟨hcm, _⟩
          · exact hB6 x (List.mem_cons_of_mem _ hq) p hp
          · rw [hch] at hcm
            have hpc : mapLookup todo.graph.dependencies x = some c := hrdeps c x hcm
            rw [hp] at hpc
            cases Option.some.inj hpc
            exact Or.inr hnone
        · intro pu hpu p hp
          rw [show (PushTodo.mk (todo.graph.needed_by c).2 todo.refs).graph.dependencies =
              todo.graph.dependencies from hgdeps] at hp
          exact hB7 pu hpu p hp
        · rw [show (PushTodo.mk (todo.graph.needed_by c).2 todo.refs).graph.dependencies =
              todo.graph.dependencies from hgdeps]
          exact hB8

theorem restack_push_spec (env : GerritEnv) (remote : String) (todo : PushTodo)
    (out : PushOutcome)
    (hrdeps : ∀ x c, c ∈ todo.graph.rdeps x → mapLookup todo.graph.dependencies c = some x)
    (hok : restack_push env remote todo = .ok out) :
    PubOrdered todo.graph.dependencies out.published ∧
    ((out.published.map Prod.fst).Nodup) ∧
    (∀ pu ∈ out.published, mapLookup todo.refs (pu : ChangeNumber × RefUpdate).1 = some pu.2) ∧
    (∀ c, mapLookup out.todo.refs c =
      if c ∈ out.published.map Prod.fst then none else mapLookup todo.refs c) ∧
    (∀ pu ∈ out.published, ∀ p,
      mapLookup todo.graph.dependencies (pu : ChangeNumber × RefUpdate).1 = some p →
      p ∈ out.published.map Prod.fst ∨ mapLookup out.todo.refs p = none) := by
  unfold restack_push at hok
  split at hok
  · exact Except.noConfusion hok
  · rename_i root hroot
    split at hok
    · rcases Except.ok.inj hok with h'
      have hrootless : mapLookup todo.graph.dependencies root = none := by
        have hmem : root ∈ todo.graph.depends_on_roots := by
          rw [dependency_root_ok hroot]
          simp
        exact depends_on_roots_parentless hmem
      refine push_go_spec env remote (bfsFuel todo.graph) todo [root] [root] [] todo.refs out
        hrdeps ?_ ?_ ?_ ?_ ?_ ?_ ?_ ?_ h'
      · intro x hx
        exact hx
      · simp
      · simp
      · intro pu hpu
        cases hpu
      · intro c _
        rfl
      · intro x hx p hp
        have hx' : x = root := by simpa using hx
        subst hx'
        rw [hrootless] at hp
        exact Option.noConfusion hp
      · intro pu hpu
        cases hpu
      · intro i j pi pj hi _ _
        simp at hi
    · rcases Except.ok.inj hok with h'
      subst h'
      refine ⟨?_, ?_, ?_, ?_, ?_⟩
      · intro i j pi pj hi _ _
        simp [PushOutcome.published] at hi
      · simp [PushOutcome.published]
      · intro pu hpu
        simp [PushOutcome.published] at hpu
      · intro c
        rw [if_neg (by simp [PushOutcome.published])]
        rfl
      · intro pu hpu
        simp [PushOutcome.published] at hpu

theorem create_todo_ordered (env : GerritEnv) (remote : String) (before : RepositoryState)
    (g : DependencyGraph) (todo : RestackTodo)
    (henv : ∀ n c, env.getChange n = some c → c.number = n)
    (hrdeps : ∀ x c, c ∈ g.rdeps x → mapLookup g.dependencies c = some x)
    (hok : create_todo env remote before g = .ok todo) :
    StepsOrdered g.dependencies todo.steps ∧ (todo.steps.map Step.change).Nodup := by
  unfold create_todo at hok
  have hlen := depends_on_roots_length_le_one g
  rcases hroots : g.depends_on_roots with _ | ⟨r, rs⟩
  · rw [hroots] at hok
    simp only [create_todo_forRoots] at hok
    rcases Except.ok.inj hok with h'
    rw [← h']
    constructor
    · intro i j sti stj hi hj hdep
      simp at hi
    · simp
  · have hrs : rs = [] := by
      rw [hroots] at hlen
      simp only [List.length_cons] at hlen
      exact List.length_eq_zero.mp (by omega)
    subst hrs
    rw [hroots] at hok
    simp only [create_todo_forRoots] at hok
    split at hok
    · exact Except.noConfusion hok
    · rename_i steps' g'' hgo
      split at hgo
      · exact Except.noConfusion hgo
      rename_i steps2 g2 hgo2
      rcases Except.ok.inj hgo with hpair
      obtain ⟨hs2, hg2⟩ := Prod.mk.injEq .. ▸ hpair
      subst hs2
      subst hg2
      rcases Except.ok.inj hok with h'
      have hr10 : r ∈ g.depends_on_roots := by
        rw [hroots]
        simp
      have hrnone : mapLookup g.dependencies r = none := depends_on_roots_parentless hr10
      have hspec := create_todo_go_spec env remote [r] henv (bfsFuel g) g [r] [r] [] steps2 g2
        hrdeps
        (fun x hx => by
          have hx' : x = r := by simpa using hx
          exact hx' ▸ hrnone)
        (fun x hx => hx)
        (by simp)
        (fun st hst => absurd hst (List.not_mem_nil st))
        (by simp)
        (fun x hx => by
          have hx' : x = r := by simpa using hx
          exact Or.inl (hx' ▸ hrnone))
        (fun i j sti stj hi _ _ => by simp at hi)
        (fun st hst => absurd hst (List.not_mem_nil st))
        hgo2
      rw [← h']
      exact ⟨hspec.2.1, hspec.2.2⟩

/-! ## Concrete instances

A 3-change linear stack `10 ← 11 ← 12` (11 depends on 10, 12 depends on 11),
discovered from change 12, and an environment in which every collaborator
call succeeds except the rebase of change 11, which conflicts. -/

def exChain : DependencyGraph :=
  { root := 12, metadata := [], dependencies := [(11, 10), (12, 11)],
    reverse_dependencies := [(10, [11]), (11, [12])] }

def exEnvPlan : GerritEnv :=
  { getChange := fun n =>
      if n = 10 then some (ChangeInfo.mk 10 ChangeStatus.new "main" 1 "I10")
      else if n = 11 then some (ChangeInfo.mk 11 ChangeStatus.new "main" 1 "I11")
      else if n = 12 then some (ChangeInfo.mk 12 ChangeStatus.new "main" 1 "I12")
      else none,
    fetchCl := fun p => some (String.append "c" (toString p.1)),
    gitFetch := fun _ => some (),
    detachHead := some (),
    rebase := fun pr => if pr.1 = 11 then none else some (String.append "n" (toString pr.1)),
    gerritPush := fun _ => some (),
    formatTreeOk := true }

theorem exChain_roots : exChain.depends_on_roots = [10] := by
  simp [DependencyGraph.depends_on_roots, depends_on_roots_go, DependencyGraph.depends_on,
    mapLookup, setInsert, exChain]

theorem exChain_rdeps_inv :
    ∀ x c, c ∈ exChain.rdeps x → mapLookup exChain.dependencies c = some x := by
  intro x c hc
  by_cases h10 : x = 10
  · subst h10
    have hc' : c ∈ [11] := hc
    have hc11 : c = 11 := by simpa using hc'
    subst hc11
    rfl
  · by_cases h11 : x = 11
    · subst h11
      have hc' : c ∈ [12] := hc
      have hc12 : c = 12 := by simpa using hc'
      subst hc12
      rfl
    · exfalso
      have hnil : exChain.rdeps x = [] := by
        unfold DependencyGraph.rdeps exChain
        simp [mapLookup, h10, h11]
      rw [hnil] at hc
      cases hc

def exFreshTodo : RestackTodo :=
  { before := RepositoryState.mk none "h0", graph := exChain,
    steps := [Step.mk 10 (RestackOnto.branch "origin" "main"),
      Step.mk 11 (RestackOnto.change 10), Step.mk 12 (RestackOnto.change 11)],
    refs := [], in_progress := none }

/-- The todo after step 10 has succeeded (as persisted before step 11 runs). -/
def exTodoAfter10 : RestackTodo :=
  { before := RepositoryState.mk none "h0", graph := exChain,
    steps := [Step.mk 11 (RestackOnto.change 10), Step.mk 12 (RestackOnto.change 11)],
    refs := [(10, RefUpdate.mk "c10" "n10")], in_progress := none }

/-- The todo persisted when step 11's rebase conflicts. -/
def exPersisted : RestackTodo :=
  { before := RepositoryState.mk none "h0", graph := exChain,
    steps := [Step.mk 12 (RestackOnto.change 11)],
    refs := [(10, RefUpdate.mk "c10" "n10")],
    in_progress := some (InProgress.mk (Step.mk 11 (RestackOnto.change 10)) "c11") }

theorem exRestackLoop_eq :
    restackLoop exEnvPlan exFreshTodo false = .failed exPersisted := by
  have h1 : restackLoop exEnvPlan exFreshTodo false =
      restackLoop exEnvPlan exTodoAfter10 true := by
    rw [restackLoop_eq_cons rfl]
    rfl
  have h2 : restackLoop exEnvPlan exTodoAfter10 true = .failed exPersisted := by
    rw [restackLoop_eq_cons rfl]
    rfl
  rw [h1, h2]

def exPushTodo : PushTodo :=
  { graph := exChain,
    refs := [(10, RefUpdate.mk "a10" "b10"), (11, RefUpdate.mk "a11" "b11"),
      (12, RefUpdate.mk "a12" "b12")] }

def exPushOut : PushOutcome :=
  .done
    (PushTodo.mk
      { root := 12, metadata := [], dependencies := [(11, 10), (12, 11)],
        reverse_dependencies := [(10, [11]), (11, [12]), (12, [])] }
      [])
    [(10, RefUpdate.mk "a10" "b10"), (11, RefUpdate.mk "a11" "b11"),
      (12, RefUpdate.mk "a12" "b12")]

theorem exRestackPush_eq :
    restack_push exEnvPlan "origin" exPushTodo = .ok exPushOut := by
  unfold restack_push
  rw [show exPushTodo.graph.dependency_root = Except.ok 10 from by
    show exChain.dependency_root = Except.ok 10
    unfold DependencyGraph.dependency_root
    rw [exChain_roots]]
  rfl

/-! ## The claims -/

/-- C1: every restack todo generated by `create_todo` respects dependency
order: whenever the graph records that change C depends on parent P and both
receive a step, P's step appears in the queue strictly before C's (stated
via indices in the step list, for every well-formed graph and consistent
server environment); in particular, for the 3-change linear stack
`10 ← 11 ← 12` the generated queue is exactly `[10, 11, 12]`. -/
theorem claim_create_todo_dependency_order :
    (∀ (env : GerritEnv) (remote : String) (before : RepositoryState)
        (g : DependencyGraph) (todo : RestackTodo),
      (∀ n c, env.getChange n = some c → c.number = n) →
      (∀ x c, c ∈ g.rdeps x → mapLookup g.dependencies c = some x) →
      create_todo env remote before g = .ok todo →
      ∀ i j C P stC stP, mapLookup g.dependencies C = some P →
        todo.steps.get? i = some stC → stC.change = C →
        todo.steps.get? j = some stP → stP.change = P → j < i)
    ∧ (create_todo exEnvPlan "origin" (RepositoryState.mk none "h0") exChain).map
        (fun t => t.steps.map Step.change) = Except.ok [10, 11, 12] := by
  constructor
  · intro env remote before g todo henv hrdeps hok i j C P stC stP hdep hi hC hj hP
    have h := (create_todo_ordered env remote before g todo henv hrdeps hok).1
    exact h i j stC stP hi hj (by rw [hC, hP]; exact hdep)
  · unfold create_todo
    rw [exChain_roots]
    rfl

/-- C2: inserting a relation (C, B) into a graph that already records parent
A ≠ B for C returns the `ConflictingParent` error and leaves the graph
completely unchanged: `depends_on C` still returns A and every
reverse-dependency set is untouched. -/
theorem claim_insert_conflict_unchanged :
    ∀ (g : DependencyGraph) (c a b : ChangeNumber),
      g.depends_on c = some a → b ≠ a →
      g.insert (DependsOnRelation.mk c b) =
        (g, some (DependencyGraph.ConflictingParent.mk c a b)) ∧
      (g.insert (DependsOnRelation.mk c b)).1.depends_on c = some a ∧
      (∀ p, (g.insert (DependsOnRelation.mk c b)).1.rdeps p = g.rdeps p) := by
  intro g c a b hdep hne
  have h := insert_conflict b hdep hne
  refine ⟨h, ?_, ?_⟩
  · rw [h]
    exact hdep
  · intro p
    rw [h]

def gConflict : DependencyGraph :=
  { root := 2, metadata := [], dependencies := [(2, 1)],
    reverse_dependencies := [(1, [2])] }

theorem claim_insert_conflict_unchanged_witness :
    gConflict.insert (DependsOnRelation.mk 2 3) =
      (gConflict, some (DependencyGraph.ConflictingParent.mk 2 1 3)) ∧
    (gConflict.insert (DependsOnRelation.mk 2 3)).1.depends_on 2 = some 1 ∧
    (∀ p, (gConflict.insert (DependsOnRelation.mk 2 3)).1.rdeps p = gConflict.rdeps p) :=
  claim_insert_conflict_unchanged gConflict 2 1 3 rfl (by decide)

/-- C3: when the head step of the execution loop fails, the persisted todo
holds `in_progress = (that step, its pre-step head)` and a steps queue equal
to the original queue with every step up to and including the failed one
removed; every step that succeeded before the failure has an entry in
`refs`, and no consumed step remains in the persisted queue (so a resume,
which pops only from the persisted queue, never re-pops them). -/
theorem claim_restack_failure_persistence :
    ∀ (env : GerritEnv) (todo : RestackTodo) (fetched : Bool) (t : RestackTodo)
      (s : Step) (oh : CommitHash),
      todo.in_progress = none →
      (todo.steps.map Step.change).Nodup →
      restackLoop env todo fetched = .failed t →
      t.in_progress = some (InProgress.mk s oh) →
      ∃ k, k < todo.steps.length ∧ todo.steps.get? k = some s ∧
        oldHeadOf env s.change = some oh ∧
        t.steps = todo.steps.drop (k + 1) ∧
        (∀ i, i < k → ∃ st u, todo.steps.get? i = some st ∧
          mapLookup t.refs st.change = some u) ∧
        (∀ i, i ≤ k → ∀ st, todo.steps.get? i = some st → st ∉ t.steps) := by
  intro env todo fetched t s oh h1 h2 h3 h4
  obtain ⟨k, hk1, hk2, hk3, hk4, hk5, hk6, _⟩ :=
    restackLoop_failed_spec env todo fetched h1 h2 t s oh h3 h4
  exact ⟨k, hk1, hk2, hk3, hk4, hk5, hk6⟩

theorem claim_restack_failure_persistence_witness :
    ∃ k, k < exFreshTodo.steps.length ∧
      exFreshTodo.steps.get? k = some (Step.mk 11 (RestackOnto.change 10)) ∧
      oldHeadOf exEnvPlan (Step.mk 11 (RestackOnto.change 10)).change = some "c11" ∧
      exPersisted.steps = exFreshTodo.steps.drop (k + 1) ∧
      (∀ i, i < k → ∃ st u, exFreshTodo.steps.get? i = some st ∧
        mapLookup exPersisted.refs st.change = some u) ∧
      (∀ i, i ≤ k → ∀ st, exFreshTodo.steps.get? i = some st → st ∉ exPersisted.steps) :=
  claim_restack_failure_persistence exEnvPlan exFreshTodo false exPersisted
    (Step.mk 11 (RestackOnto.change 10)) "c11" rfl (by decide) exRestackLoop_eq rfl

/-- C4: the push traversal publishes in dependency order — whenever the graph
records that C depends on P and both appear in the publish sequence, P's
publish comes strictly first, and a pending parent of any published change is
itself published — every publish comes from a pending entry, and the
persisted todo after the run holds exactly the pending entries minus the
published ones, so a later invocation skips already-flushed entries. -/
theorem claim_push_order_resumable :
    ∀ (env : GerritEnv) (remote : String) (todo : PushTodo) (out : PushOutcome),
      (∀ x c, c ∈ todo.graph.rdeps x → mapLookup todo.graph.dependencies c = some x) →
      restack_push env remote todo = .ok out →
      (∀ i j C P uC uP, out.published.get? i = some (C, uC) →
        out.published.get? j = some (P, uP) →
        mapLookup todo.graph.dependencies C = some P → j < i) ∧
      (∀ pu ∈ out.published,
        mapLookup todo.refs (pu : ChangeNumber × RefUpdate).1 = some pu.2) ∧
      (∀ c, mapLookup (PushOutcome.todo out).refs c =
        if c ∈ out.published.map Prod.fst then none else mapLookup todo.refs c) ∧
      (∀ C P uC uP, mapLookup todo.graph.dependencies C = some P →
        mapLookup todo.refs C = some uC → mapLookup todo.refs P = some uP →
        C ∈ out.published.map Prod.fst → P ∈ out.published.map Prod.fst) := by
  intro env remote todo out hrdeps hok
  obtain ⟨hord, hnd, hpend, hfinal, hclosed⟩ := restack_push_spec env remote todo out hrdeps hok
  refine ⟨?_, hpend, hfinal, ?_⟩
  · intro i j C P uC uP hi hj hdep
    exact hord i j (C, uC) (P, uP) hi hj hdep
  · intro C P uC uP hdep hC hP hCpub
    obtain ⟨pu, hpu, hpuc⟩ := List.mem_map.mp hCpub
    rcases hclosed pu hpu P (by rw [hpuc]; exact hdep) with hm | hn
    · exact hm
    · by_cases hPm : P ∈ out.published.map Prod.fst
      · exact hPm
      · exfalso
        have hfin := hfinal P
        rw [hn, if_neg hPm] at hfin
        rw [hP] at hfin
        exact Option.noConfusion hfin

theorem claim_push_order_resumable_witness :
    (∀ i j C P uC uP, exPushOut.published.get? i = some (C, uC) →
      exPushOut.published.get? j = some (P, uP) →
      mapLookup exPushTodo.graph.dependencies C = some P → j < i) ∧
    (∀ pu ∈ exPushOut.published,
      mapLookup exPushTodo.refs (pu : ChangeNumber × RefUpdate).1 = some pu.2) ∧
    (∀ c, mapLookup (PushOutcome.todo exPushOut).refs c =
      if c ∈ exPushOut.published.map Prod.fst then none
      else mapLookup exPushTodo.refs c) ∧
    (∀ C P uC uP, mapLookup exPushTodo.graph.dependencies C = some P →
      mapLookup exPushTodo.refs C = some uC → mapLookup exPushTodo.refs P = some uP →
      C ∈ exPushOut.published.map Prod.fst → P ∈ exPushOut.published.map Prod.fst) :=
  claim_push_order_resumable exEnvPlan "origin" exPushTodo exPushOut
    exChain_rdeps_inv exRestackPush_eq

/-- C5: the `PushTodo` derived from a completed `RestackTodo` contains
exactly the refs entries whose old and new hashes differ (no-op entries are
dropped, all others kept), with the same graph; and when every entry is a
no-op, no push todo is written at all. -/
theorem claim_push_todo_derivation :
    ∀ t : RestackTodo, ((t.refs.map Prod.fst).Nodup) →
      (∀ c, mapLookup (PushTodo.ofRestackTodo t).refs c =
        match mapLookup t.refs c with
        | some u => if u.has_change then some u else none
        | none => none) ∧
      (PushTodo.ofRestackTodo t).graph = t.graph ∧
      ((∀ p ∈ t.refs, (p : ChangeNumber × RefUpdate).2.old = p.2.new) →
        restackFinish t = none) :=
  fun t hnd => ⟨ofRestack_refs_lookup t hnd, rfl, restackFinish_noop t⟩

def exFinishedTodo : RestackTodo :=
  { before := RepositoryState.mk none "h0", graph := exChain, steps := [],
    refs := [(10, RefUpdate.mk "a" "b"), (11, RefUpdate.mk "c" "c")],
    in_progress := none }

theorem claim_push_todo_derivation_witness :
    (∀ c, mapLookup (PushTodo.ofRestackTodo exFinishedTodo).refs c =
      match mapLookup exFinishedTodo.refs c with
      | some u => if u.has_change then some u else none
      | none => none) ∧
    (PushTodo.ofRestackTodo exFinishedTodo).graph = exFinishedTodo.graph ∧
    ((∀ p ∈ exFinishedTodo.refs, (p : ChangeNumber × RefUpdate).2.old = p.2.new) →
      restackFinish exFinishedTodo = none) :=
  claim_push_todo_derivation exFinishedTodo (by decide)

/-- C6: a successful `perform_step` records `{ old := the change's fetched
current-patchset head, new := the rebase result }` where the rebase target
is the already-updated `refs[P].new` whenever `refs` holds an entry for the
parent P, and only when no entry exists is the parent's unmodified current
patchset fetched and used; a root step always rebases onto
`{remote}/{branch}`. -/
theorem claim_perform_step_target :
    ∀ (env : GerritEnv) (todo : RestackTodo) (step : Step) (fetched : Bool)
      (todo' : RestackTodo) (fetched' : Bool),
      todo.perform_step env step fetched = .ok (todo', fetched') →
      ∃ old_head new_head,
        todo' = { todo with refs := mapInsert todo.refs step.change (RefUpdate.mk old_head new_head) } ∧
        oldHeadOf env step.change = some old_head ∧
        (∀ remote branch, step.onto = .branch remote branch →
          env.rebase (step.change, remote ++ "/" ++ branch) = some new_head) ∧
        (∀ parent, step.onto = .change parent →
          ((∃ u, mapLookup todo.refs parent = some u ∧
              env.rebase (step.change, u.new) = some new_head) ∨
           (mapLookup todo.refs parent = none ∧
            ∃ pinfo pref, env.getChange parent = some pinfo ∧
              env.fetchCl (pinfo.number, pinfo.currentPatchset) = some pref ∧
              env.rebase (step.change, pref) = some new_head))) := by
  intro env todo step fetched todo' fetched' h
  obtain ⟨oh, nh, he, hoh, hrest⟩ := perform_step_ok h
  refine ⟨oh, nh, he, hoh, ?_, ?_⟩
  · intro remote branch hro
    rw [hro] at hrest
    exact hrest
  · intro parent hro
    rw [hro] at hrest
    exact hrest

/-- The already-updated parent ref is used: a step for change 12 whose
parent 11 has an entry in `refs`. -/
def exTodoWithParentRef : RestackTodo :=
  { before := RepositoryState.mk none "h0", graph := exChain, steps := [],
    refs := [(11, RefUpdate.mk "c11" "k11")], in_progress := none }

theorem claim_perform_step_target_witness :
    ∃ old_head new_head,
      (RestackTodo.mk (RepositoryState.mk none "h0") exChain []
          (mapInsert [(11, RefUpdate.mk "c11" "k11")] 12 (RefUpdate.mk "c12" "n12")) none) =
        (RestackTodo.mk (RepositoryState.mk none "h0") exChain []
          (mapInsert [(11, RefUpdate.mk "c11" "k11")] 12 (RefUpdate.mk old_head new_head))
          none) ∧
      oldHeadOf exEnvPlan 12 = some old_head ∧
      (∀ remote branch,
        (RestackOnto.change 11 : RestackOnto) = RestackOnto.branch remote branch →
        exEnvPlan.rebase (12, remote ++ "/" ++ branch) = some new_head) ∧
      (∀ parent, (RestackOnto.change 11 : RestackOnto) = RestackOnto.change parent →
        ((∃ u, mapLookup [(11, RefUpdate.mk "c11" "k11")] parent = some u ∧
            exEnvPlan.rebase (12, u.new) = some new_head) ∨
         (mapLookup [(11, RefUpdate.mk "c11" "k11")] parent = none ∧
          ∃ pinfo pref, exEnvPlan.getChange parent = some pinfo ∧
            exEnvPlan.fetchCl (pinfo.number, pinfo.currentPatchset) = some pref ∧
            exEnvPlan.rebase (12, pref) = some new_head))) :=
  claim_perform_step_target exEnvPlan exTodoWithParentRef (Step.mk 12 (RestackOnto.change 11))
    true
    (RestackTodo.mk (RepositoryState.mk none "h0") exChain []
      (mapInsert [(11, RefUpdate.mk "c11" "k11")] 12 (RefUpdate.mk "c12" "n12")) none)
    true rfl

/-- C7: `depends_on_roots` returns exactly the parent-less changes reachable
from the graph's root by repeatedly following `depends_on` links; for the
linear chain `10 ← 11 ← 12` rooted at 12, the result is `{10}`. -/
theorem claim_depends_on_roots_characterization :
    (∀ (g : DependencyGraph) (c : ChangeNumber),
      c ∈ g.depends_on_roots ↔
        (∃ n, iterParent g n = some c) ∧ g.depends_on c = none)
    ∧ exChain.depends_on_roots = [10] :=
  ⟨depends_on_roots_mem_iff, exChain_roots⟩

/-- C8: any sequence of `insert` and `needed_by` calls starting from an empty
graph preserves the bidirectional-edge invariant:
`reverse_dependencies[P]` contains C iff `dependencies[C] = P` (the lazily
created empty reverse-edge sets of `needed_by` contain no elements and never
violate the iff). -/
theorem claim_edge_invariant :
    ∀ (root : ChangeNumber) (ops : List GraphOp),
      EdgeInvariant (ops.foldl applyGraphOp (DependencyGraph.new root)) :=
  fun root ops => edgeInvariant_foldl (edgeInvariant_new root) ops

/-- C9 (counterexample): with a cache whose reads fail and a remote that
would answer, `Gerrit::query` (and `fetch_cl`, `http_request`) returns the
cache error instead of the remote's result — the cache read failure is not
treated as a cache miss. -/
def exQueryChange : ChangeInfo := ChangeInfo.mk 42 ChangeStatus.new "main" 1 "I42"

def badCacheEnv : CacheEnv :=
  { cacheGet := fun _ => .error "cache read failed",
    cacheSet := fun _ _ => .ok (),
    runQuery := fun _ => .ok [exQueryChange],
    gitFetchCommit := fun _ => .ok "deadbeef",
    httpSend := fun _ => .ok "body" }

theorem claim_cache_read_counterexample :
    badCacheEnv.runQuery "status:open" = .ok [exQueryChange] ∧
    Gerrit.query badCacheEnv "status:open" = .error "cache read failed" ∧
    Gerrit.query badCacheEnv "status:open" ≠ .ok [exQueryChange] ∧
    Gerrit.fetch_cl badCacheEnv (42, 1) = .error "cache read failed" ∧
    Gerrit.http_request badCacheEnv "endpoint" = .error "cache read failed" := by
  refine ⟨rfl, rfl, ?_, rfl, rfl⟩
  intro h
  have h' : (Except.error "cache read failed" : Except String (List ChangeInfo)) =
      .ok [exQueryChange] := h
  exact Except.noConfusion h'

/-- C9 (amended): for every cached remote operation, a failure of the
underlying cache read is fatal: the operation returns the cache error
without consulting the remote (the result is the error for *every* remote
behaviour). -/
theorem claim_cache_read_fatal :
    ∀ (env : CacheEnv) (e : String),
      (∀ q, env.cacheGet (CacheKey.query q) = .error e → Gerrit.query env q = .error e) ∧
      (∀ key, env.cacheGet (ChangeKey.toCacheKey key) = .error e →
        Gerrit.get_change env key = .error e) ∧
      (∀ p, env.cacheGet (CacheKey.fetch p) = .error e → Gerrit.fetch_cl env p = .error e) ∧
      (∀ ep, env.cacheGet (CacheKey.api ep) = .error e →
        Gerrit.http_request env ep = .error e) := by
  intro env e
  refine ⟨?_, ?_, ?_, ?_⟩
  · intro q h
    unfold Gerrit.query
    rw [h]
  · intro key h
    unfold Gerrit.get_change
    rw [h]
  · intro p h
    unfold Gerrit.fetch_cl
    rw [h]
  · intro ep h
    unfold Gerrit.http_request
    rw [h]

/-- C10: `depends_on_roots` always returns at most one change, and
`dependency_root` can only ever fail with zero candidates — its "more than
one root" failure case is unreachable. -/
theorem claim_single_root :
    ∀ g : DependencyGraph,
      g.depends_on_roots.length ≤ 1 ∧
      (∀ e, g.dependency_root = .error e → e = []) :=
  fun g => ⟨depends_on_roots_length_le_one g, fun _ he => dependency_root_error_nil he⟩

end GitGr
